import Mathlib

/-!
# Verification of the `ads` repository (merkle-forests and skip-lists crates)

This file shallowly embeds the two authenticated data structures of the
repository and proves the properties claimed of them.

* `src/merkle-forests/src/lib.rs`: a perfect binary Merkle tree
  (`PerfectMerkleTree`), its suffix proofs, and a Merkle mountain range
  (`MerkleMountainRange`) of such trees.
* `src/skip-lists/src/main.rs`: an authenticated skip list with finger
  back-pointers.

Modelling conventions:

* Byte strings (`Vec<u8>`) are `List Nat`.
* The hash oracle `Blake2b256::digest(bcs::to_bytes(HashPair{left, right}))`
  is an abstract parameter `H : List Nat → List Nat → List Nat`; the skip
  list's `Sha256` incremental hasher is an abstract `Hs : List Nat → List Nat`
  applied to the concatenation of the `update` calls, and `bcs::to_bytes` of
  the generic value type is an abstract serializer `ser : V → List Nat`.
* The source stores each node's `hash` and `height` as fields computed at
  construction time (`new_leaf`, `from_children`); since nodes are only ever
  created through those two constructors, the fields are modelled as derived
  functions `MerkleNode.hash` / `MerkleNode.height` over the node structure,
  which take the same values.
* Rust panics (`assert!`, `panic!`, `unwrap`/`expect` failures, out-of-bounds
  indexing and `usize` underflow) are modelled by `Option`, returning `none`.
-/

/-- A byte string (`Vec<u8>` in the source). -/
abbrev Bytes : Type := List Nat

/-- A Merkle tree node (`MerkleNode` in the source).  A leaf carries its raw
value; an internal node carries its two children.  The `hash`, `height`,
`node_type` and `value` fields of the source are derived functions below. -/
inductive MerkleNode : Type where
  | leaf (value : Bytes)
  | internal (left : MerkleNode) (right : MerkleNode)
deriving Repr, DecidableEq

/-- `MerkleNode::new_leaf`: a leaf node whose hash is its raw value. -/
def MerkleNode.new_leaf (value : Bytes) : MerkleNode := .leaf value

/-- `MerkleNode::from_children`.  The source asserts
`left.height == right.height`; on the construction paths exercised below the
assertion always holds (both children are roots of perfect trees of equal
height), which the development proves rather than assumes. -/
def MerkleNode.from_children (left right : MerkleNode) : MerkleNode :=
  .internal left right

/-- The `height` field of the source: 0 for leaves, `left.height + 1` for
internal nodes (as computed by `from_children`). -/
def MerkleNode.height : MerkleNode → Nat
  | .leaf _ => 0
  | .internal l _ => l.height + 1

/-- The `hash` field of the source, parameterized by the pair-hash oracle `H`
(`Blake2b256::digest ∘ bcs::to_bytes ∘ HashPair`): a leaf's hash is its raw
value (leaves are stored unhashed), an internal node's hash is
`H left.hash right.hash`. -/
def MerkleNode.hash (H : Bytes → Bytes → Bytes) : MerkleNode → Bytes
  | .leaf v => v
  | .internal l r => H (l.hash H) (r.hash H)

/-- The left-to-right sequence of leaf values stored under a node. -/
def MerkleNode.leafValues : MerkleNode → List Bytes
  | .leaf v => [v]
  | .internal l r => l.leafValues ++ r.leafValues

/-- `PerfectMerkleTree`: a wrapper around the root node. -/
structure PerfectMerkleTree : Type where
  root : MerkleNode
deriving Repr, DecidableEq

/-- One pairing pass of `PerfectMerkleTree::new`:
`nodes.chunks(2).map(|c| from_children(c[0], c[1]))`.  It is only invoked on
even-length levels (the source panics first otherwise); a trailing single
chunk, which would panic in the source on `chunk[1]`, is dropped. -/
def pairUp : List MerkleNode → List MerkleNode
  | a :: b :: rest => MerkleNode.from_children a b :: pairUp rest
  | _ => []

theorem pairUp_length (l : List MerkleNode) : (pairUp l).length = l.length / 2 := by
  match l with
  | [] => rfl
  | [a] => simp [pairUp]
  | a :: b :: rest =>
    simp only [pairUp, List.length_cons]
    rw [pairUp_length rest]
    omega

/-- The `while nodes.len() > 1` loop of `PerfectMerkleTree::new`, followed by
`nodes.into_iter().next().unwrap()`: pair the level up repeatedly; a level of
odd length `> 1` panics (`none`), an empty input panics on `unwrap` (`none`). -/
def buildLoop (nodes : List MerkleNode) : Option MerkleNode :=
  if h : nodes.length ≤ 1 then nodes.head?
  else if nodes.length % 2 ≠ 0 then none
  else buildLoop (pairUp nodes)
termination_by nodes.length
decreasing_by
  rw [pairUp_length]
  omega

/-- `PerfectMerkleTree::new`: build leaves from the data blocks and pair
level-by-level. -/
def PerfectMerkleTree.new (data_blocks : List Bytes) : Option PerfectMerkleTree :=
  (buildLoop (data_blocks.map MerkleNode.new_leaf)).map PerfectMerkleTree.mk

/-- `PerfectMerkleTree::height`. -/
def PerfectMerkleTree.height (t : PerfectMerkleTree) : Nat := t.root.height

/-- `PerfectMerkleTree::num_leaves`: `2usize.pow(height)`. -/
def PerfectMerkleTree.num_leaves (t : PerfectMerkleTree) : Nat := 2 ^ t.height

/-- `PerfectMerkleTree::digest`: the root hash. -/
def PerfectMerkleTree.digest (H : Bytes → Bytes → Bytes) (t : PerfectMerkleTree) : Bytes :=
  t.root.hash H

/-- `SuffixProof`: a proof of the most recent `n` elements of a perfect tree. -/
structure SuffixProof : Type where
  num_suffix_elements : Nat
  proof : List Bytes
deriving Repr, DecidableEq

/-- `PerfectMerkleTree::collect_proof_nodes`, the recursive sibling-collection
walk.  On a leaf reached with `subtree_size ≠ 1`, the source's two `if let
Some` blocks do nothing, so nothing is emitted. -/
def PerfectMerkleTree.collect_proof_nodes (H : Bytes → Bytes → Bytes) :
    MerkleNode → Nat → Nat → Nat → Nat → List Bytes
  | node, subtree_start, subtree_size, first_suffix_index, suffix_size =>
    if subtree_size = 1 then []
    else
      let mid := subtree_start + subtree_size / 2
      match node with
      | .leaf _ => []
      | .internal left right =>
        if first_suffix_index ≥ mid then
          left.hash H ::
            collect_proof_nodes H right mid (subtree_size / 2) first_suffix_index suffix_size
        else if first_suffix_index + suffix_size ≤ mid then
          right.hash H ::
            collect_proof_nodes H left subtree_start (subtree_size / 2) first_suffix_index
              suffix_size
        else
          collect_proof_nodes H left subtree_start (subtree_size / 2) first_suffix_index
              (mid - first_suffix_index) ++
            collect_proof_nodes H right mid (subtree_size / 2) mid
              (first_suffix_index + suffix_size - mid)

/-- `PerfectMerkleTree::prove_most_recent_n_elements`: asserts
`0 < n ∧ n ≤ num_leaves`, then collects the sibling hashes for the suffix
`[num_leaves − n, num_leaves)`. -/
def PerfectMerkleTree.prove_most_recent_n_elements (H : Bytes → Bytes → Bytes)
    (t : PerfectMerkleTree) (num_suffix_elements : Nat) : Option SuffixProof :=
  if 0 < num_suffix_elements ∧ num_suffix_elements ≤ t.num_leaves then
    some ⟨num_suffix_elements,
      collect_proof_nodes H t.root 0 t.num_leaves (t.num_leaves - num_suffix_elements)
        num_suffix_elements⟩
  else none

/-- The inner pairing `while` of `verify_suffix_proof` (after the odd-start
fix-up): hash consecutive pairs left-to-right, carrying a trailing unpaired
element forward unchanged. -/
def pairLevel (H : Bytes → Bytes → Bytes) : List Bytes → List Bytes
  | a :: b :: rest => H a b :: pairLevel H rest
  | [a] => [a]
  | [] => []

theorem pairLevel_length (H : Bytes → Bytes → Bytes) (l : List Bytes) :
    (pairLevel H l).length = (l.length + 1) / 2 := by
  match l with
  | [] => rfl
  | [a] => simp [pairLevel]
  | a :: b :: rest =>
    simp only [pairLevel, List.length_cons]
    rw [pairLevel_length H rest]
    omega

/-- The outer `while current_hashes.len() > 1 || level_start_index > 0` loop of
`verify_suffix_proof`, working over the fixed proof list `F`.  Returns the
final `(current_hashes, proof_index)`; `none` models the in-loop panics
(`assert!(proof_index > 0)` failing, or indexing `current_hashes[0]` on an
empty level).  The source also maintains a `level_size` variable that is
written (`level_size = (level_size + 1) / 2`) but never read; it is omitted. -/
def verifyLoop (H : Bytes → Bytes → Bytes) (F : List Bytes) :
    List Bytes → Nat → Nat → Option (List Bytes × Nat)
  | current, level_start, proof_index =>
    if current.length > 1 ∨ level_start > 0 then
      if level_start % 2 = 1 then
        if proof_index = 0 then none
        else
          match current with
          | [] => none
          | c0 :: rest =>
            verifyLoop H F (H (F.getD (proof_index - 1) []) c0 :: pairLevel H rest)
              ((level_start - 1) / 2) (proof_index - 1)
      else
        verifyLoop H F (pairLevel H current) (level_start / 2) proof_index
    else some (current, proof_index)
termination_by current level_start _ => level_start + current.length
decreasing_by
  · simp only [List.length_cons]
    have := pairLevel_length H rest
    omega
  · have := pairLevel_length H current
    omega

/-- `PerfectMerkleTree::verify_suffix_proof`: check the suffix length matches
the proof, rebuild the root level-by-level, and require all proof elements
consumed, a single remaining hash, and that hash equal to the root.  The
`t.num_leaves - num_suffix_elements` subtraction underflows (panics) in the
source when the proof claims more elements than the tree has; this is the
`num_suffix_elements ≤ num_leaves` guard. -/
def PerfectMerkleTree.verify_suffix_proof (H : Bytes → Bytes → Bytes)
    (t : PerfectMerkleTree) (suffix_elements : List Bytes) (pf : SuffixProof) :
    Option Unit :=
  if suffix_elements.length = pf.num_suffix_elements then
    if pf.num_suffix_elements ≤ t.num_leaves then
      match verifyLoop H pf.proof suffix_elements (t.num_leaves - pf.num_suffix_elements)
          pf.proof.length with
      | none => none
      | some (current, proof_index) =>
        if proof_index = 0 ∧ current.length = 1 ∧ current.headD [] = t.root.hash H then
          some ()
        else none
    else none
  else none

/-- The canonical perfect tree over a leaf list of length `2^k` (older entries
in the left half): the unique shape `PerfectMerkleTree::new` produces.  Proof
device, not part of the source. -/
def canonTree : Nat → List Bytes → MerkleNode
  | 0, l => .leaf (l.headD [])
  | k + 1, l => .internal (canonTree k (l.take (2 ^ k))) (canonTree k (l.drop (2 ^ k)))

/-- The last `n` elements of a list. -/
def lastN (n : Nat) (l : List α) : List α := l.drop (l.length - n)

/-! ## Characterization of `PerfectMerkleTree::new` by canonical trees -/

theorem canonTree_height (k : Nat) (l : List Bytes) : (canonTree k l).height = k := by
  induction k generalizing l with
  | zero => rfl
  | succ k ih => simp [canonTree, MerkleNode.height, ih]

theorem two_pow_succ_eq (k : Nat) : (2 : Nat) ^ (k + 1) = 2 ^ k + 2 ^ k := by
  rw [Nat.pow_succ]
  ring

theorem canonTree_leafValues (k : Nat) (l : List Bytes) (hl : l.length = 2 ^ k) :
    (canonTree k l).leafValues = l := by
  induction k generalizing l with
  | zero =>
    match l, hl with
    | [v], _ => rfl
  | succ k ih =>
    have hp := two_pow_succ_eq k
    have h1 : (l.take (2 ^ k)).length = 2 ^ k := by
      rw [List.length_take, hl, hp]
      omega
    have h2 : (l.drop (2 ^ k)).length = 2 ^ k := by
      rw [List.length_drop, hl, hp]
      omega
    simp [canonTree, MerkleNode.leafValues, ih _ h1, ih _ h2]

/-- The forest of canonical height-`k` trees over consecutive `2^k`-sized
chunks of `l` (a proof device for the level-by-level build). -/
def chunkTrees (k : Nat) (l : List Bytes) : List MerkleNode :=
  if l = [] then []
  else canonTree k (l.take (2 ^ k)) :: chunkTrees k (l.drop (2 ^ k))
termination_by l.length
decreasing_by
  have h1 : 0 < 2 ^ k := Nat.two_pow_pos k
  have h2 : 0 < l.length := List.length_pos.mpr (by assumption)
  simp only [List.length_drop]
  omega

theorem chunkTrees_nil (k : Nat) : chunkTrees k [] = [] := by
  rw [chunkTrees]
  rfl

theorem chunkTrees_zero (l : List Bytes) : chunkTrees 0 l = l.map MerkleNode.new_leaf := by
  match l with
  | [] => rw [chunkTrees]; rfl
  | a :: t =>
    rw [chunkTrees, if_neg (by simp)]
    have h1 : (a :: t).take (2 ^ 0) = [a] := rfl
    have h2 : (a :: t).drop (2 ^ 0) = t := rfl
    rw [h1, h2, chunkTrees_zero t]
    rfl

theorem chunkTrees_singleton (k : Nat) (l : List Bytes) (hl : l.length = 2 ^ k) :
    chunkTrees k l = [canonTree k l] := by
  have hne : l ≠ [] := by
    intro h
    subst h
    simp only [List.length_nil] at hl
    have := Nat.two_pow_pos k
    omega
  rw [chunkTrees, if_neg hne]
  have h1 : l.take (2 ^ k) = l := List.take_all_of_le (by omega)
  have h2 : l.drop (2 ^ k) = [] := List.drop_eq_nil_of_le (by omega)
  rw [h1, h2, chunkTrees]
  rfl

theorem pow_le_length_of_dvd (k : Nat) (l : List Bytes) (h : 2 ^ k ∣ l.length)
    (hne : l ≠ []) : 2 ^ k ≤ l.length := by
  rcases h with ⟨c, hc⟩
  have hpos : 0 < l.length := List.length_pos.mpr hne
  rcases Nat.eq_zero_or_pos c with h0 | h0
  · rw [h0, Nat.mul_zero] at hc
    omega
  · calc 2 ^ k = 2 ^ k * 1 := by ring
      _ ≤ 2 ^ k * c := Nat.mul_le_mul_left _ h0
      _ = l.length := hc.symm

theorem chunkTrees_length (k : Nat) (l : List Bytes) (h : 2 ^ k ∣ l.length) :
    (chunkTrees k l).length = l.length / 2 ^ k := by
  by_cases hne : l = []
  · subst hne
    rw [chunkTrees]
    simp
  · rw [chunkTrees, if_neg hne]
    have hge := pow_le_length_of_dvd k l h hne
    have hdvd : 2 ^ k ∣ (l.drop (2 ^ k)).length := by
      simp only [List.length_drop]
      exact Nat.dvd_sub' h (dvd_refl _)
    have hrec := chunkTrees_length k (l.drop (2 ^ k)) hdvd
    simp only [List.length_drop] at hrec
    simp only [List.length_cons, hrec]
    have hpos : 0 < 2 ^ k := Nat.two_pow_pos k
    rcases h with ⟨c, hc⟩
    match c, hc with
    | 0, hc =>
      rw [Nat.mul_zero] at hc
      have := List.length_pos.mpr hne
      omega
    | c' + 1, hc =>
      have e1 : l.length - 2 ^ k = 2 ^ k * c' := by
        rw [hc, Nat.mul_succ]
        omega
      rw [e1, Nat.mul_div_cancel_left _ hpos, hc, Nat.mul_div_cancel_left _ hpos]
termination_by l.length
decreasing_by
  have h1 : 0 < 2 ^ k := Nat.two_pow_pos k
  have h2 : 0 < l.length := List.length_pos.mpr (by assumption)
  simp only [List.length_drop]
  omega

theorem pairUp_chunkTrees (k : Nat) (l : List Bytes) (h : 2 ^ (k + 1) ∣ l.length) :
    pairUp (chunkTrees k l) = chunkTrees (k + 1) l := by
  by_cases hne : l = []
  · subst hne
    rw [chunkTrees_nil, chunkTrees_nil]
    rfl
  · have hk : 0 < 2 ^ k := Nat.two_pow_pos k
    have hge := pow_le_length_of_dvd (k + 1) l h hne
    have hk1 := two_pow_succ_eq k
    have hd : l.drop (2 ^ k) ≠ [] := by
      intro hnil
      have := congrArg List.length hnil
      simp only [List.length_drop, List.length_nil] at this
      omega
    have hrest : (l.drop (2 ^ k)).drop (2 ^ k) = l.drop (2 ^ (k + 1)) := by
      rw [List.drop_drop]
      congr 1
      omega
    have hdvd : 2 ^ (k + 1) ∣ (l.drop (2 ^ (k + 1))).length := by
      simp only [List.length_drop]
      exact Nat.dvd_sub' h (dvd_refl _)
    conv_lhs => rw [chunkTrees, if_neg hne, chunkTrees, if_neg hd]
    conv_rhs => rw [chunkTrees, if_neg hne]
    simp only [pairUp]
    rw [hrest]
    congr 1
    · have htake1 : (l.take (2 ^ (k + 1))).take (2 ^ k) = l.take (2 ^ k) := by
        rw [List.take_take]
        congr 1
        omega
      have htake2 : (l.take (2 ^ (k + 1))).drop (2 ^ k) = (l.drop (2 ^ k)).take (2 ^ k) := by
        rw [List.drop_take]
        congr 1
        omega
      show MerkleNode.from_children _ _ = canonTree (k + 1) (l.take (2 ^ (k + 1)))
      rw [canonTree, htake1, htake2]
      rfl
    · exact pairUp_chunkTrees k _ hdvd
termination_by l.length
decreasing_by
  have h1 : 0 < 2 ^ (k + 1) := Nat.two_pow_pos (k + 1)
  have h2 : 0 < l.length := List.length_pos.mpr (by assumption)
  simp only [List.length_drop]
  omega

theorem buildLoop_chunkTrees (k j : Nat) (l : List Bytes) (hj : j ≤ k)
    (hl : l.length = 2 ^ k) : buildLoop (chunkTrees j l) = some (canonTree k l) := by
  rcases Nat.lt_or_ge j k with hlt | hge
  · have hdvd : 2 ^ j ∣ l.length := by
      rw [hl]
      exact pow_dvd_pow 2 (by omega)
    have hdvd1 : 2 ^ (j + 1) ∣ l.length := by
      rw [hl]
      exact pow_dvd_pow 2 (by omega)
    have hlen : (chunkTrees j l).length = 2 ^ (k - j) := by
      rw [chunkTrees_length j l hdvd, hl, Nat.pow_div (by omega) (by omega)]
    have hgt : 1 < (chunkTrees j l).length := by
      rw [hlen]
      calc 1 < 2 ^ 1 := by omega
        _ ≤ 2 ^ (k - j) := Nat.pow_le_pow_right (by omega) (by omega)
    have heven : (chunkTrees j l).length % 2 = 0 := by
      rw [hlen]
      have : (2 : Nat) ^ (k - j) = 2 * 2 ^ (k - j - 1) := by
        rw [← Nat.pow_succ']
        congr 1
        omega
      omega
    rw [buildLoop, dif_neg (by omega), if_neg (by omega)]
    rw [pairUp_chunkTrees j l hdvd1]
    exact buildLoop_chunkTrees k (j + 1) l (by omega) hl
  · have hjk : j = k := le_antisymm hj hge
    subst hjk
    rw [chunkTrees_singleton j l hl, buildLoop]
    rfl
termination_by k - j

/-- `PerfectMerkleTree::new` on a list of `2^k` blocks builds exactly the
canonical perfect tree. -/
theorem new_canonTree (k : Nat) (l : List Bytes) (hl : l.length = 2 ^ k) :
    PerfectMerkleTree.new l = some ⟨canonTree k l⟩ := by
  rw [PerfectMerkleTree.new, ← chunkTrees_zero, buildLoop_chunkTrees k 0 l (by omega) hl]
  rfl

/-! ## Success criterion of `PerfectMerkleTree::new` (claim C7) -/

theorem buildLoop_isSome (ns : List MerkleNode) :
    (buildLoop ns).isSome ↔ ∃ k, ns.length = 2 ^ k := by
  rw [buildLoop]
  by_cases h1 : ns.length ≤ 1
  · rw [dif_pos h1]
    match ns, h1 with
    | [], _ =>
      simp only [List.head?_nil, Option.isSome_none, Bool.false_eq_true, false_iff,
        List.length_nil]
      rintro ⟨k, hk⟩
      have := Nat.two_pow_pos k
      omega
    | [a], _ =>
      simp only [List.head?_cons, Option.isSome_some, List.length_cons, List.length_nil,
        true_iff]
      exact ⟨0, rfl⟩
  · rw [dif_neg h1]
    by_cases h2 : ns.length % 2 = 0
    · rw [if_neg (by omega)]
      rw [buildLoop_isSome (pairUp ns), pairUp_length]
      constructor
      · rintro ⟨k, hk⟩
        refine ⟨k + 1, ?_⟩
        have := two_pow_succ_eq k
        omega
      · rintro ⟨k, hk⟩
        match k, hk with
        | 0, hk => omega
        | k' + 1, hk =>
          refine ⟨k', ?_⟩
          have := two_pow_succ_eq k'
          omega
    · rw [if_pos (by omega)]
      simp only [Option.isSome_none, Bool.false_eq_true, false_iff]
      rintro ⟨k, hk⟩
      match k, hk with
      | 0, hk => omega
      | k' + 1, hk =>
        have := two_pow_succ_eq k'
        omega
termination_by ns.length
decreasing_by
  rw [pairUp_length]
  omega

/-- C7: `PerfectMerkleTree::new` succeeds (returns a tree) iff the number of
leaf byte-strings is at least 1 and a power of two; for length 0 or a
non-power-of-two length it fails (the source panics: `InvalidShape`). -/
theorem C7_new_succeeds_iff_pow2 (l : List Bytes) :
    (PerfectMerkleTree.new l).isSome ↔ (1 ≤ l.length ∧ ∃ k, l.length = 2 ^ k) := by
  rw [PerfectMerkleTree.new]
  rw [Option.isSome_map']
  rw [buildLoop_isSome]
  simp only [List.length_map]
  constructor
  · rintro ⟨k, hk⟩
    have := Nat.two_pow_pos k
    exact ⟨by omega, k, hk⟩
  · rintro ⟨-, k, hk⟩
    exact ⟨k, hk⟩

/-- C9: the tree built from the single leaf `[v]` has `digest()` equal to `v`
itself: leaves are stored unhashed, so a one-leaf tree's root is the leaf
bytes verbatim. -/
theorem C9_single_leaf_digest (H : Bytes → Bytes → Bytes) (v : Bytes) :
    ∃ t, PerfectMerkleTree.new [v] = some t ∧ t.digest H = v := by
  refine ⟨⟨.leaf v⟩, ?_, rfl⟩
  exact new_canonTree 0 [v] rfl

/-! ## Level-by-level hashing (proof device for the suffix-proof verifier) -/

/-- `j` pairing passes. -/
def pairIter (H : Bytes → Bytes → Bytes) : Nat → List Bytes → List Bytes
  | 0, c => c
  | j + 1, c => pairLevel H (pairIter H j c)

theorem pairLevel_append (H : Bytes → Bytes → Bytes) (X Y : List Bytes)
    (h : X.length % 2 = 0) : pairLevel H (X ++ Y) = pairLevel H X ++ pairLevel H Y := by
  match X, h with
  | [], _ => rfl
  | [a], h => simp at h
  | a :: b :: t, h =>
    have h' : t.length % 2 = 0 := by
      simp only [List.length_cons] at h
      omega
    simp only [List.cons_append, pairLevel, List.append_eq]
    rw [pairLevel_append H t Y h']

theorem pairIter_length (H : Bytes → Bytes → Bytes) (j : Nat) (X : List Bytes)
    (h : 2 ^ j ∣ X.length) : (pairIter H j X).length = X.length / 2 ^ j := by
  induction j generalizing X with
  | zero => simp [pairIter]
  | succ j ih =>
    have hj : 2 ^ j ∣ X.length := dvd_trans (pow_dvd_pow 2 (by omega)) h
    rw [pairIter, pairLevel_length, ih X hj]
    rcases h with ⟨c, hc⟩
    have hp : 0 < 2 ^ j := Nat.two_pow_pos j
    have e1 : X.length / 2 ^ j = 2 * c := by
      rw [hc, show (2 : Nat) ^ (j + 1) * c = 2 ^ j * (2 * c) by rw [Nat.pow_succ]; ring,
        Nat.mul_div_cancel_left _ hp]
    have e2 : X.length / 2 ^ (j + 1) = c := by
      rw [hc, Nat.mul_div_cancel_left _ (Nat.two_pow_pos (j + 1))]
    rw [e1, e2]
    omega

theorem pairIter_append (H : Bytes → Bytes → Bytes) (j : Nat) (X Y : List Bytes)
    (h : 2 ^ j ∣ X.length) :
    pairIter H j (X ++ Y) = pairIter H j X ++ pairIter H j Y := by
  induction j generalizing X Y with
  | zero => rfl
  | succ j ih =>
    have hj : 2 ^ j ∣ X.length := dvd_trans (pow_dvd_pow 2 (by omega)) h
    rw [pairIter, pairIter, pairIter, ih X Y hj]
    refine pairLevel_append H _ _ ?_
    rw [pairIter_length H j X hj]
    rcases h with ⟨c, hc⟩
    have hp : 0 < 2 ^ j := Nat.two_pow_pos j
    have : X.length / 2 ^ j = 2 * c := by
      rw [hc, show (2 : Nat) ^ (j + 1) * c = 2 ^ j * (2 * c) by rw [Nat.pow_succ]; ring,
        Nat.mul_div_cancel_left _ hp]
    omega

theorem pairIter_canonTree (H : Bytes → Bytes → Bytes) (k : Nat) (l : List Bytes)
    (hl : l.length = 2 ^ k) : pairIter H k l = [(canonTree k l).hash H] := by
  induction k generalizing l with
  | zero =>
    match l, hl with
    | [v], _ => rfl
  | succ k ih =>
    have hs := two_pow_succ_eq k
    have h1 : (l.take (2 ^ k)).length = 2 ^ k := by
      rw [List.length_take, hl, hs]
      omega
    have h2 : (l.drop (2 ^ k)).length = 2 ^ k := by
      rw [List.length_drop, hl, hs]
      omega
    have hsplit : l = l.take (2 ^ k) ++ l.drop (2 ^ k) := (List.take_append_drop _ l).symm
    rw [pairIter]
    conv_lhs => rw [hsplit]
    rw [pairIter_append H k _ _ (by rw [h1]), ih _ h1, ih _ h2]
    rfl

/-! ## Suffix-proof round trip for a perfect tree -/

theorem collect_size_one (H : Bytes → Bytes → Bytes) (node : MerkleNode) (s f n : Nat) :
    PerfectMerkleTree.collect_proof_nodes H node s 1 f n = [] := by
  rw [PerfectMerkleTree.collect_proof_nodes]
  simp

theorem collect_internal (H : Bytes → Bytes → Bytes) (A B : MerkleNode) (s sz f n : Nat)
    (hsz : sz ≠ 1) :
    PerfectMerkleTree.collect_proof_nodes H (.internal A B) s sz f n =
      (if f ≥ s + sz / 2 then
        A.hash H :: PerfectMerkleTree.collect_proof_nodes H B (s + sz / 2) (sz / 2) f n
      else if f + n ≤ s + sz / 2 then
        B.hash H :: PerfectMerkleTree.collect_proof_nodes H A s (sz / 2) f n
      else
        PerfectMerkleTree.collect_proof_nodes H A s (sz / 2) f (s + sz / 2 - f) ++
          PerfectMerkleTree.collect_proof_nodes H B (s + sz / 2) (sz / 2) (s + sz / 2)
            (f + n - (s + sz / 2))) := by
  rw [PerfectMerkleTree.collect_proof_nodes]
  rw [if_neg hsz]

theorem collect_full (H : Bytes → Bytes → Bytes) (k : Nat) :
    ∀ (q : Nat) (l : List Bytes),
    PerfectMerkleTree.collect_proof_nodes H (canonTree k l) (q * 2 ^ k) (2 ^ k)
      (q * 2 ^ k) (2 ^ k) = [] := by
  induction k with
  | zero => intro q l; exact collect_size_one H _ _ _ _
  | succ k ih =>
    intro q l
    have hs := two_pow_succ_eq k
    have hp : 0 < 2 ^ k := Nat.two_pow_pos k
    have hdiv : 2 ^ (k + 1) / 2 = 2 ^ k := by omega
    rw [show canonTree (k + 1) l
        = MerkleNode.internal (canonTree k (l.take (2 ^ k))) (canonTree k (l.drop (2 ^ k)))
      from rfl]
    rw [collect_internal H _ _ _ _ _ _ (by omega), hdiv]
    rw [if_neg (by omega), if_neg (by omega)]
    have e1 : q * 2 ^ (k + 1) = 2 * q * 2 ^ k := by rw [hs]; ring
    have e2 : q * 2 ^ (k + 1) + 2 ^ k = (2 * q + 1) * 2 ^ k := by rw [hs]; ring
    have e3 : q * 2 ^ (k + 1) + 2 ^ k - q * 2 ^ (k + 1) = 2 ^ k := by omega
    have e4 : q * 2 ^ (k + 1) + 2 ^ (k + 1) - (q * 2 ^ (k + 1) + 2 ^ k) = 2 ^ k := by omega
    rw [e3, e4]
    rw [show PerfectMerkleTree.collect_proof_nodes H (canonTree k (l.take (2 ^ k)))
          (q * 2 ^ (k + 1)) (2 ^ k) (q * 2 ^ (k + 1)) (2 ^ k)
        = PerfectMerkleTree.collect_proof_nodes H (canonTree k (l.take (2 ^ k)))
          (2 * q * 2 ^ k) (2 ^ k) (2 * q * 2 ^ k) (2 ^ k) by rw [e1]]
    rw [show PerfectMerkleTree.collect_proof_nodes H (canonTree k (l.drop (2 ^ k)))
          (q * 2 ^ (k + 1) + 2 ^ k) (2 ^ k) (q * 2 ^ (k + 1) + 2 ^ k) (2 ^ k)
        = PerfectMerkleTree.collect_proof_nodes H (canonTree k (l.drop (2 ^ k)))
          ((2 * q + 1) * 2 ^ k) (2 ^ k) ((2 * q + 1) * 2 ^ k) (2 ^ k) by rw [e2]]
    rw [ih (2 * q) (l.take (2 ^ k)), ih (2 * q + 1) (l.drop (2 ^ k))]
    rfl

theorem lastN_length {α : Type} (n : Nat) (l : List α) (h : n ≤ l.length) :
    (lastN n l).length = n := by
  rw [lastN, List.length_drop]
  omega

theorem lastN_append_right {α : Type} (n : Nat) (X Y : List α) (h : n ≤ Y.length) :
    lastN n (X ++ Y) = lastN n Y := by
  rw [lastN, lastN, List.length_append]
  rw [show X.length + Y.length - n = X.length + (Y.length - n) by omega]
  exact List.drop_append _

theorem lastN_split {α : Type} (n : Nat) (X Y : List α) (hle : Y.length ≤ n)
    (hn : n ≤ X.length + Y.length) :
    lastN n (X ++ Y) = lastN (n - Y.length) X ++ Y := by
  rw [lastN, lastN, List.length_append, List.drop_append_eq_append_drop]
  congr 1
  · congr 1
    omega
  · rw [show X.length + Y.length - n - X.length = 0 by omega]
    rfl

theorem getD_append_cons (F0 : List Bytes) (x : Bytes) (rest : List Bytes) :
    (F0 ++ x :: rest).getD F0.length [] = x := by
  induction F0 with
  | nil => rfl
  | cons a t ih => simpa using ih

/-- The sibling list emitted by `prove_most_recent_n_elements` for the last
`n` leaves of the canonical tree of height `k` sitting at absolute leaf offset
`q * 2^k` (a proof device). -/
def suffixCollect (H : Bytes → Bytes → Bytes) (k q n : Nat) (l : List Bytes) : List Bytes :=
  PerfectMerkleTree.collect_proof_nodes H (canonTree k l) (q * 2 ^ k) (2 ^ k)
    (q * 2 ^ k + (2 ^ k - n)) n

theorem suffixCollect_succ_right (H : Bytes → Bytes → Bytes) (k q n : Nat) (l : List Bytes)
    (h1 : 1 ≤ n) (h2 : n ≤ 2 ^ k) :
    suffixCollect H (k + 1) q n l
      = (canonTree k (l.take (2 ^ k))).hash H
          :: suffixCollect H k (2 * q + 1) n (l.drop (2 ^ k)) := by
  have hs := two_pow_succ_eq k
  have hp : 0 < 2 ^ k := Nat.two_pow_pos k
  have e1 : q * 2 ^ (k + 1) + 2 ^ k = (2 * q + 1) * 2 ^ k := by rw [hs]; ring
  rw [suffixCollect]
  rw [show canonTree (k + 1) l
      = MerkleNode.internal (canonTree k (l.take (2 ^ k))) (canonTree k (l.drop (2 ^ k)))
    from rfl]
  rw [collect_internal H _ _ _ _ _ _ (by omega)]
  have hdiv : 2 ^ (k + 1) / 2 = 2 ^ k := by omega
  rw [hdiv]
  rw [if_pos (by
    have hsub : 2 ^ (k + 1) - n = 2 ^ k + (2 ^ k - n) := by omega
    rw [hsub]
    exact Nat.add_le_add_left (Nat.le_add_right _ _) _)]
  congr 1
  rw [suffixCollect, ← e1]
  rw [show q * 2 ^ (k + 1) + (2 ^ (k + 1) - n)
      = q * 2 ^ (k + 1) + 2 ^ k + (2 ^ k - n) by omega]

theorem suffixCollect_succ_straddle (H : Bytes → Bytes → Bytes) (k q n : Nat)
    (l : List Bytes) (h1 : 2 ^ k < n) (h2 : n ≤ 2 ^ (k + 1)) :
    suffixCollect H (k + 1) q n l = suffixCollect H k (2 * q) (n - 2 ^ k) (l.take (2 ^ k)) := by
  have hs := two_pow_succ_eq k
  have hp : 0 < 2 ^ k := Nat.two_pow_pos k
  have e0 : q * 2 ^ (k + 1) = 2 * q * 2 ^ k := by rw [hs]; ring
  have e1 : q * 2 ^ (k + 1) + 2 ^ k = (2 * q + 1) * 2 ^ k := by rw [hs]; ring
  rw [suffixCollect]
  rw [show canonTree (k + 1) l
      = MerkleNode.internal (canonTree k (l.take (2 ^ k))) (canonTree k (l.drop (2 ^ k)))
    from rfl]
  rw [collect_internal H _ _ _ _ _ _ (by omega)]
  have hdiv : 2 ^ (k + 1) / 2 = 2 ^ k := by omega
  rw [hdiv]
  rw [if_neg (by omega), if_neg (by omega)]
  rw [show q * 2 ^ (k + 1) + 2 ^ k - (q * 2 ^ (k + 1) + (2 ^ (k + 1) - n))
      = n - 2 ^ k by omega]
  rw [show q * 2 ^ (k + 1) + (2 ^ (k + 1) - n) + n - (q * 2 ^ (k + 1) + 2 ^ k)
      = 2 ^ k by omega]
  rw [show PerfectMerkleTree.collect_proof_nodes H (canonTree k (l.drop (2 ^ k)))
        (q * 2 ^ (k + 1) + 2 ^ k) (2 ^ k) (q * 2 ^ (k + 1) + 2 ^ k) (2 ^ k)
      = PerfectMerkleTree.collect_proof_nodes H (canonTree k (l.drop (2 ^ k)))
        ((2 * q + 1) * 2 ^ k) (2 ^ k) ((2 * q + 1) * 2 ^ k) (2 ^ k) by rw [e1]]
  rw [collect_full H k (2 * q + 1) (l.drop (2 ^ k)), List.append_nil]
  rw [suffixCollect, ← e0]
  rw [show q * 2 ^ (k + 1) + (2 ^ k - (n - 2 ^ k)) = q * 2 ^ (k + 1) + (2 ^ (k + 1) - n)
    by omega]

theorem verifyLoop_canon (H : Bytes → Bytes → Bytes) (k : Nat) :
    ∀ (l C F0 F2 : List Bytes) (q n : Nat),
      l.length = 2 ^ k → 1 ≤ n → n ≤ 2 ^ k →
      verifyLoop H (F0 ++ suffixCollect H k q n l ++ F2) (lastN n l ++ C)
          (q * 2 ^ k + (2 ^ k - n)) (F0.length + (suffixCollect H k q n l).length)
        = verifyLoop H (F0 ++ suffixCollect H k q n l ++ F2)
            ((canonTree k l).hash H :: pairIter H k C) q F0.length := by
  induction k with
  | zero =>
    intro l C F0 F2 q n hl h1 h2
    have hn : n = 1 := by omega
    subst hn
    match l, hl with
    | [v], _ =>
      have hsc : suffixCollect H 0 q 1 [v] = [] := collect_size_one H _ _ _ _
      rw [hsc]
      simp only [List.append_nil, List.length_nil, Nat.add_zero, pow_zero, Nat.mul_one,
        Nat.sub_self]
      rfl
  | succ k ih =>
    intro l C F0 F2 q n hl h1 h2
    have hs := two_pow_succ_eq k
    have hp : 0 < 2 ^ k := Nat.two_pow_pos k
    have hA : (l.take (2 ^ k)).length = 2 ^ k := by rw [List.length_take, hl]; omega
    have hB : (l.drop (2 ^ k)).length = 2 ^ k := by rw [List.length_drop, hl]; omega
    have hsplit : l = l.take (2 ^ k) ++ l.drop (2 ^ k) := (List.take_append_drop _ l).symm
    have e0 : q * 2 ^ (k + 1) = 2 * q * 2 ^ k := by rw [hs]; ring
    have e1 : q * 2 ^ (k + 1) + 2 ^ k = (2 * q + 1) * 2 ^ k := by rw [hs]; ring
    rcases le_or_lt n (2 ^ k) with hle | hgt
    · -- the suffix lies entirely in the right half
      rw [suffixCollect_succ_right H k q n l h1 hle]
      have hlast : lastN n l = lastN n (l.drop (2 ^ k)) := by
        conv_lhs => rw [hsplit]
        exact lastN_append_right n _ _ (by omega)
      rw [hlast]
      have hF : F0 ++ ((canonTree k (l.take (2 ^ k))).hash H
            :: suffixCollect H k (2 * q + 1) n (l.drop (2 ^ k))) ++ F2
          = (F0 ++ [(canonTree k (l.take (2 ^ k))).hash H])
            ++ suffixCollect H k (2 * q + 1) n (l.drop (2 ^ k)) ++ F2 := by
        simp
      rw [hF]
      rw [show F0.length + ((canonTree k (l.take (2 ^ k))).hash H
            :: suffixCollect H k (2 * q + 1) n (l.drop (2 ^ k))).length
          = (F0 ++ [(canonTree k (l.take (2 ^ k))).hash H]).length
            + (suffixCollect H k (2 * q + 1) n (l.drop (2 ^ k))).length by
        simp
        omega]
      rw [show q * 2 ^ (k + 1) + (2 ^ (k + 1) - n)
          = (2 * q + 1) * 2 ^ k + (2 ^ k - n) by
        rw [← e1]
        omega]
      rw [ih (l.drop (2 ^ k)) C (F0 ++ [(canonTree k (l.take (2 ^ k))).hash H]) F2
        (2 * q + 1) n hB h1 hle]
      -- one odd verifier step merges in the left-sibling hash from the proof
      rw [show (F0 ++ [(canonTree k (l.take (2 ^ k))).hash H]).length = F0.length + 1 by
        simp]
      conv_lhs => rw [verifyLoop]
      rw [if_pos (Or.inr (by omega : 2 * q + 1 > 0))]
      rw [if_pos (by omega : (2 * q + 1) % 2 = 1)]
      rw [if_neg (by omega : ¬(F0.length + 1 = 0))]
      show verifyLoop H _
          (H (((F0 ++ [(canonTree k (l.take (2 ^ k))).hash H])
                ++ suffixCollect H k (2 * q + 1) n (l.drop (2 ^ k)) ++ F2).getD
              (F0.length + 1 - 1) [])
            ((canonTree k (l.drop (2 ^ k))).hash H) :: pairLevel H (pairIter H k C))
          ((2 * q + 1 - 1) / 2) (F0.length + 1 - 1) = _
      rw [show (2 * q + 1 - 1) / 2 = q by omega]
      rw [show F0.length + 1 - 1 = F0.length from rfl]
      rw [show ((F0 ++ [(canonTree k (l.take (2 ^ k))).hash H])
            ++ suffixCollect H k (2 * q + 1) n (l.drop (2 ^ k)) ++ F2)
          = F0 ++ ((canonTree k (l.take (2 ^ k))).hash H
            :: (suffixCollect H k (2 * q + 1) n (l.drop (2 ^ k)) ++ F2)) by simp]
      rw [getD_append_cons]
      rfl
    · -- the suffix straddles both halves
      have hnl1 : 1 ≤ n - 2 ^ k := by omega
      have hnl2 : n - 2 ^ k ≤ 2 ^ k := by omega
      rw [suffixCollect_succ_straddle H k q n l hgt h2]
      have hlast : lastN n l = lastN (n - 2 ^ k) (l.take (2 ^ k)) ++ l.drop (2 ^ k) := by
        conv_lhs => rw [hsplit]
        have hstep := lastN_split n (l.take (2 ^ k)) (l.drop (2 ^ k)) (by omega)
          (by rw [hA, hB]; omega)
        rw [hB] at hstep
        exact hstep
      rw [hlast]
      rw [List.append_assoc (lastN (n - 2 ^ k) (l.take (2 ^ k))) (l.drop (2 ^ k)) C]
      rw [show q * 2 ^ (k + 1) + (2 ^ (k + 1) - n)
          = 2 * q * 2 ^ k + (2 ^ k - (n - 2 ^ k)) by
        rw [← e0]
        omega]
      rw [ih (l.take (2 ^ k)) (l.drop (2 ^ k) ++ C) F0 F2 (2 * q) (n - 2 ^ k) hA hnl1 hnl2]
      have hBC : pairIter H k (l.drop (2 ^ k) ++ C)
          = (canonTree k (l.drop (2 ^ k))).hash H :: pairIter H k C := by
        rw [pairIter_append H k _ C (by rw [hB]), pairIter_canonTree H k _ hB]
        rfl
      rw [hBC]
      -- one even verifier step pairs the two half roots
      conv_lhs => rw [verifyLoop]
      rw [if_pos (Or.inl (by simp only [List.length_cons]; omega))]
      rw [if_neg (by omega : ¬(2 * q % 2 = 1))]
      rw [show pairLevel H ((canonTree k (l.take (2 ^ k))).hash H
            :: (canonTree k (l.drop (2 ^ k))).hash H :: pairIter H k C)
          = (canonTree (k + 1) l).hash H :: pairIter H (k + 1) C from rfl]
      rw [show 2 * q / 2 = q by omega]

theorem canon_num_leaves (k : Nat) (l : List Bytes) :
    (PerfectMerkleTree.mk (canonTree k l)).num_leaves = 2 ^ k := by
  rw [PerfectMerkleTree.num_leaves, PerfectMerkleTree.height]
  rw [show (PerfectMerkleTree.mk (canonTree k l)).root = canonTree k l from rfl]
  rw [canonTree_height]

theorem tree_prove_canon (H : Bytes → Bytes → Bytes) (k n : Nat) (l : List Bytes)
    (h1 : 1 ≤ n) (h2 : n ≤ 2 ^ k) :
    (PerfectMerkleTree.mk (canonTree k l)).prove_most_recent_n_elements H n
      = some ⟨n, suffixCollect H k 0 n l⟩ := by
  rw [PerfectMerkleTree.prove_most_recent_n_elements, canon_num_leaves]
  rw [if_pos ⟨h1, h2⟩]
  rw [suffixCollect, Nat.zero_mul, Nat.zero_add]

theorem pairIter_nil (H : Bytes → Bytes → Bytes) (j : Nat) : pairIter H j [] = [] := by
  induction j with
  | zero => rfl
  | succ j ih => rw [pairIter, ih]; rfl

theorem tree_verify_canon (H : Bytes → Bytes → Bytes) (k n : Nat) (l : List Bytes)
    (hl : l.length = 2 ^ k) (h1 : 1 ≤ n) (h2 : n ≤ 2 ^ k) :
    (PerfectMerkleTree.mk (canonTree k l)).verify_suffix_proof H (lastN n l)
      ⟨n, suffixCollect H k 0 n l⟩ = some () := by
  have hloop := verifyLoop_canon H k l [] [] [] 0 n hl h1 h2
  simp only [List.nil_append, List.append_nil, Nat.zero_mul, Nat.zero_add, List.length_nil,
    pairIter_nil] at hloop
  rw [PerfectMerkleTree.verify_suffix_proof]
  rw [if_pos (by
    rw [show (SuffixProof.mk n (suffixCollect H k 0 n l)).num_suffix_elements = n from rfl]
    exact lastN_length n l (by omega))]
  rw [canon_num_leaves]
  rw [if_pos (by
    rw [show (SuffixProof.mk n (suffixCollect H k 0 n l)).num_suffix_elements = n from rfl]
    exact h2)]
  rw [show (SuffixProof.mk n (suffixCollect H k 0 n l)).num_suffix_elements = n from rfl]
  rw [show (SuffixProof.mk n (suffixCollect H k 0 n l)).proof = suffixCollect H k 0 n l
    from rfl]
  rw [hloop]
  rw [show verifyLoop H (suffixCollect H k 0 n l) [(canonTree k l).hash H] 0 0
      = some ([(canonTree k l).hash H], 0) by
    rw [verifyLoop]
    rw [if_neg (by simp)]]
  simp

/-- C3: for every `k`, every list of `2^k` leaf byte-strings and every
`1 ≤ n ≤ 2^k`, verifying the proof returned by
`prove_most_recent_n_elements(n)` together with the last `n` leaf values
against the tree's root accepts (so the reconstructed root equals the root
hash).  The claim's range `k ≤ 12` is a hypothesis; the proof does not need
it. -/
theorem C3_tree_suffix_roundtrip (H : Bytes → Bytes → Bytes) (k : Nat) (hk : k ≤ 12)
    (l : List Bytes) (hl : l.length = 2 ^ k) (n : Nat) (h1 : 1 ≤ n) (h2 : n ≤ 2 ^ k) :
    ∃ t pf, PerfectMerkleTree.new l = some t
      ∧ t.prove_most_recent_n_elements H n = some pf
      ∧ t.verify_suffix_proof H (lastN n l) pf = some () := by
  refine ⟨⟨canonTree k l⟩, ⟨n, suffixCollect H k 0 n l⟩, ?_, ?_, ?_⟩
  · exact new_canonTree k l hl
  · exact tree_prove_canon H k n l h1 h2
  · exact tree_verify_canon H k n l hl h1 h2

/-- Witness for C3 at `k = 1`, `l = [[1], [2]]`, `n = 1`. -/
theorem C3_tree_suffix_roundtrip_witness :
    (1 : Nat) ≤ 12 ∧ ([[1], [2]] : List Bytes).length = 2 ^ 1 ∧ (1 ≤ 1 ∧ 1 ≤ 2 ^ 1)
    ∧ ∃ t pf, PerfectMerkleTree.new [[1], [2]] = some t
      ∧ t.prove_most_recent_n_elements (fun a b => a ++ b) 1 = some pf
      ∧ t.verify_suffix_proof (fun a b => a ++ b) (lastN 1 [[1], [2]]) pf = some () := by
  refine ⟨by norm_num, by norm_num, ⟨le_refl 1, by norm_num⟩, ?_⟩
  exact C3_tree_suffix_roundtrip (fun a b => a ++ b) 1 (by norm_num) [[1], [2]] (by norm_num)
    1 (le_refl 1) (by norm_num)

/-! ## The Merkle mountain range -/

/-- `MerkleMountainRange`: the full entry list plus the tree slots. -/
structure MerkleMountainRange : Type where
  entries : List Bytes
  trees : List (Option PerfectMerkleTree)
deriving Repr

/-- The `for tree in self.trees.iter_mut()` carry loop of
`MerkleMountainRange::add_entry`: an occupied slot is taken (becomes `none`)
and merged into the carry as the left child; the first free slot receives the
carry and the loop breaks.  Falling off the end (impossible from `new`, whose
invariant keeps the last slot free) drops the carry, as the source would. -/
def addEntryLoop (i : MerkleNode) : List (Option PerfectMerkleTree) →
    List (Option PerfectMerkleTree)
  | [] => []
  | none :: rest => some ⟨i⟩ :: rest
  | some t :: rest => none :: addEntryLoop (MerkleNode.from_children t.root i) rest

/-- `MerkleMountainRange::add_entry`: push the entry, run the carry loop, and
append a fresh empty slot if the last slot became occupied
(`self.trees.last().unwrap().is_some()`; the `unwrap` cannot fail because
`trees` is never empty, and an empty list here simply skips the push). -/
def MerkleMountainRange.add_entry (m : MerkleMountainRange) (entry : Bytes) :
    MerkleMountainRange :=
  let trees' := addEntryLoop (MerkleNode.new_leaf entry) m.trees
  { entries := m.entries ++ [entry]
    trees :=
      match trees'.getLast? with
      | some (some _) => trees' ++ [none]
      | _ => trees' }

/-- `MerkleMountainRange::new`: start from no entries and a single empty slot,
then `add_entry` each input in order. -/
def MerkleMountainRange.new (entries : List Bytes) : MerkleMountainRange :=
  entries.foldl (fun m e => m.add_entry e) ⟨[], [none]⟩

/-- `MostRecentNElementsProof`: the trailing entries, the indices of fully
covered trees, and at most one partial tree's suffix proof. -/
structure MostRecentNElementsProof : Type where
  entries : List Bytes
  full_tree_indices : List Nat
  partial_tree_proof : Option (Nat × SuffixProof)
deriving Repr

/-- The tree walk of `MerkleMountainRange::prove_most_recent_n_elements`:
slots are visited from index 0 upward; a break when nothing remains, full
coverage when a tree fits, otherwise one partial suffix proof and an early
return.  Exhausting the slots with a nonzero remainder fails the source's
`assert!(remaining_elements == 0)` (`none`). -/
def proveLoop (H : Bytes → Bytes → Bytes) : List (Option PerfectMerkleTree) → Nat → Nat →
    List Nat → Option (List Nat × Option (Nat × SuffixProof))
  | [], _, remaining, acc => if remaining = 0 then some (acc, none) else none
  | t :: ts, tree_index, remaining, acc =>
    if remaining = 0 then some (acc, none)
    else
      match t with
      | none => proveLoop H ts (tree_index + 1) remaining acc
      | some tree =>
        if tree.num_leaves ≤ remaining then
          proveLoop H ts (tree_index + 1) (remaining - tree.num_leaves) (acc ++ [tree_index])
        else
          (tree.prove_most_recent_n_elements H remaining).map
            (fun sp => (acc, some (tree_index, sp)))

/-- `MerkleMountainRange::prove_most_recent_n_elements`: asserts
`n ≤ entries.len()`, takes the last `n` entries, and walks the trees. -/
def MerkleMountainRange.prove_most_recent_n_elements (H : Bytes → Bytes → Bytes)
    (m : MerkleMountainRange) (num_suffix_elements : Nat) :
    Option MostRecentNElementsProof :=
  if num_suffix_elements ≤ m.entries.length then
    (proveLoop H m.trees 0 num_suffix_elements []).map
      (fun p => ⟨m.entries.drop (m.entries.length - num_suffix_elements), p.1, p.2⟩)
  else none

/-- The partial-tree phase of `verify_most_recent_n_elements`: check the slot
index, require the slot occupied, verify the oldest
`num_suffix_elements`-many proof entries against that tree, and return the
`(total_leaves_covered, entry_offset)` pair it establishes. -/
def verifyPartStep (H : Bytes → Bytes → Bytes) (m : MerkleMountainRange)
    (pf : MostRecentNElementsProof) : Option (Nat × Nat) :=
  match pf.partial_tree_proof with
  | none => some (0, 0)
  | some (tree_index, sp) =>
    if tree_index < m.trees.length then
      match m.trees.getD tree_index none with
      | some tree =>
        if sp.num_suffix_elements ≤ pf.entries.length then
          match tree.verify_suffix_proof H (pf.entries.take sp.num_suffix_elements) sp with
          | some _ => some (sp.num_suffix_elements, sp.num_suffix_elements)
          | none => none
        else none
      | none => none
    else none

/-- The full-tree phase of `verify_most_recent_n_elements`, iterating
`full_tree_indices` in reverse: bounds-check the slot, require it occupied,
slice the next `num_leaves` proof entries, rebuild a perfect tree from them
(`PerfectMerkleTree::new`, whose panic on a bad shape is `none`), and compare
digests.  Returns the final `(entry_offset, total_leaves_covered)`. -/
def verifyFullLoop (H : Bytes → Bytes → Bytes) (m : MerkleMountainRange)
    (entries : List Bytes) : List Nat → Nat → Nat → Option (Nat × Nat)
  | [], entry_offset, total => some (entry_offset, total)
  | tree_index :: rest, entry_offset, total =>
    if tree_index < m.trees.length then
      match m.trees.getD tree_index none with
      | some tree =>
        if entry_offset + tree.num_leaves ≤ entries.length then
          match PerfectMerkleTree.new ((entries.drop entry_offset).take tree.num_leaves) with
          | some reconstructed =>
            if reconstructed.digest H = tree.digest H then
              verifyFullLoop H m entries rest (entry_offset + tree.num_leaves)
                (total + tree.num_leaves)
            else none
          | none => none
        else none
      | none => none
    else none

/-- `MerkleMountainRange::verify_most_recent_n_elements`: reject empty
`entries`, verify the optional partial tree on the oldest entries, verify the
full trees from the largest index down, and require every entry accounted
for. -/
def MerkleMountainRange.verify_most_recent_n_elements (H : Bytes → Bytes → Bytes)
    (m : MerkleMountainRange) (pf : MostRecentNElementsProof) : Option Unit :=
  if pf.entries.isEmpty then none
  else
    match verifyPartStep H m pf with
    | none => none
    | some (total0, offset0) =>
      match verifyFullLoop H m pf.entries pf.full_tree_indices.reverse offset0 total0 with
      | none => none
      | some (_, total) => if total = pf.entries.length then some () else none

/-- The byte string `block<i>` for a digit `i` (ASCII), as used by the
concrete scenarios. -/
def blockBytes (i : Nat) : Bytes := [98, 108, 111, 99, 107, 48 + i]

/-- C8: the tree-level prover rejects `n = 0` (assertion
`num_suffix_elements > 0`); the MMR-level prover accepts `n = 0` on any MMR
(its only precondition is `n ≤ entries.len()`) and returns a proof with empty
entries, no full trees and no partial tree; and the MMR verifier rejects
every proof whose entries list is empty. -/
theorem C8_zero_suffix_asymmetry :
    (∀ (H : Bytes → Bytes → Bytes) (t : PerfectMerkleTree),
      t.prove_most_recent_n_elements H 0 = none)
    ∧ (∀ (H : Bytes → Bytes → Bytes) (m : MerkleMountainRange),
      m.prove_most_recent_n_elements H 0 = some ⟨[], [], none⟩)
    ∧ (∀ (H : Bytes → Bytes → Bytes) (m : MerkleMountainRange) (fti : List Nat)
        (pt : Option (Nat × SuffixProof)),
      m.verify_most_recent_n_elements H ⟨[], fti, pt⟩ = none) := by
  refine ⟨?_, ?_, ?_⟩
  · intro H t
    rw [PerfectMerkleTree.prove_most_recent_n_elements]
    rw [if_neg (by simp)]
  · intro H m
    rw [MerkleMountainRange.prove_most_recent_n_elements, if_pos (Nat.zero_le _)]
    have h1 : proveLoop H m.trees 0 0 [] = some ([], none) := by
      cases m.trees with
      | nil => rfl
      | cons t ts => rw [proveLoop.eq_def]; rfl
    rw [h1, Nat.sub_zero]
    simp [List.drop_length]
  · intro H m fti pt
    rfl

/-- C6: on the MMR built from `block1..block7` (occupied slots 0, 1, 2; slot 3
empty), `prove_most_recent_n_elements(3)` returns exactly the last three
entries with `full_tree_indices = [0, 1]` and no partial proof, and
`prove_most_recent_n_elements(5)` returns the last five entries with
`full_tree_indices = [0, 1]` and a partial proof at slot 2 whose
`num_suffix_elements` is 2. -/
theorem C6_mmr_concrete_proofs (H : Bytes → Bytes → Bytes) :
    (MerkleMountainRange.new
        [blockBytes 1, blockBytes 2, blockBytes 3, blockBytes 4, blockBytes 5,
          blockBytes 6, blockBytes 7]).prove_most_recent_n_elements H 3
      = some ⟨[blockBytes 5, blockBytes 6, blockBytes 7], [0, 1], none⟩
    ∧ ∃ sp, (MerkleMountainRange.new
        [blockBytes 1, blockBytes 2, blockBytes 3, blockBytes 4, blockBytes 5,
          blockBytes 6, blockBytes 7]).prove_most_recent_n_elements H 5
      = some ⟨[blockBytes 3, blockBytes 4, blockBytes 5, blockBytes 6, blockBytes 7],
          [0, 1], some (2, sp)⟩
      ∧ sp.num_suffix_elements = 2 := by
  refine ⟨rfl, ⟨2, [H (blockBytes 1) (blockBytes 2)]⟩, rfl, rfl⟩

/-! ## Binary-counter arithmetic for the MMR shape -/

theorem mod_pow_mod (E i j : Nat) (h : i ≤ j) : E % 2 ^ j % 2 ^ i = E % 2 ^ i :=
  Nat.mod_mod_of_dvd E (pow_dvd_pow 2 h)

theorem mod_pow_mono (E i j : Nat) (h : i ≤ j) : E % 2 ^ i ≤ E % 2 ^ j := by
  calc E % 2 ^ i = E % 2 ^ j % 2 ^ i := (mod_pow_mod E i j h).symm
    _ ≤ E % 2 ^ j := Nat.mod_le _ _

theorem mod_pow_succ (E i : Nat) : E % 2 ^ (i + 1) = E % 2 ^ i + 2 ^ i * (E / 2 ^ i % 2) := by
  rw [Nat.pow_succ]
  exact Nat.mod_mul

theorem testBit_iff_le_mod (E i : Nat) : E.testBit i = true ↔ 2 ^ i ≤ E % 2 ^ (i + 1) := by
  rw [Nat.testBit_to_div_mod, decide_eq_true_iff]
  have hd := mod_pow_succ E i
  have hr : E % 2 ^ i < 2 ^ i := Nat.mod_lt _ (Nat.two_pow_pos i)
  have hb : E / 2 ^ i % 2 = 0 ∨ E / 2 ^ i % 2 = 1 := by omega
  rcases hb with hb | hb <;> rw [hb] at hd <;> constructor <;> intro h <;> omega

theorem testBit_false_iff_mod_lt (E i : Nat) :
    E.testBit i = false ↔ E % 2 ^ (i + 1) < 2 ^ i := by
  constructor
  · intro hf
    by_contra hlt
    push_neg at hlt
    have := (testBit_iff_le_mod E i).mpr hlt
    rw [hf] at this
    exact Bool.false_ne_true this
  · intro hlt
    rcases hb : E.testBit i with _ | _
    · rfl
    · have := (testBit_iff_le_mod E i).mp hb
      omega

theorem mod_succ_of_bit_true (E i : Nat) (h : E.testBit i = true) :
    E % 2 ^ (i + 1) = E % 2 ^ i + 2 ^ i := by
  have hd := mod_pow_succ E i
  rw [Nat.testBit_to_div_mod, decide_eq_true_iff] at h
  rw [h] at hd
  omega

theorem mod_succ_of_bit_false (E i : Nat) (h : E.testBit i = false) :
    E % 2 ^ (i + 1) = E % 2 ^ i := by
  have hd := mod_pow_succ E i
  have h' : E / 2 ^ i % 2 = 0 := by
    rcases hb : E / 2 ^ i % 2 with _ | b
    · rfl
    · exfalso
      have h1 : E / 2 ^ i % 2 < 2 := Nat.mod_lt _ (by omega)
      have : E.testBit i = true := by
        rw [Nat.testBit_to_div_mod, decide_eq_true_iff]
        omega
      rw [h] at this
      exact Bool.false_ne_true this
  rw [h'] at hd
  omega

theorem all_ones_mod (j m : Nat) (h : m ≤ j) : (2 ^ j - 1) % 2 ^ m = 2 ^ m - 1 := by
  have hd : 2 ^ m ∣ 2 ^ j - 2 ^ m := by
    have : (2 : Nat) ^ j = 2 ^ m * 2 ^ (j - m) := by
      rw [← Nat.pow_add]
      congr 1
      omega
    rw [this]
    exact Nat.dvd_sub' (Dvd.intro _ rfl) (dvd_refl _)
  have hm : 0 < 2 ^ m := Nat.two_pow_pos m
  have hj : 2 ^ m ≤ 2 ^ j := Nat.pow_le_pow_right (by omega) h
  have e : 2 ^ j - 1 = (2 ^ j - 2 ^ m) + (2 ^ m - 1) := by omega
  obtain ⟨c, hc⟩ := hd
  rw [e, Nat.add_mod, hc, Nat.mul_mod_right, Nat.zero_add,
    Nat.mod_eq_of_lt (by omega : 2 ^ m - 1 < 2 ^ m),
    Nat.mod_eq_of_lt (by omega : 2 ^ m - 1 < 2 ^ m)]

theorem succ_mod_of_ne_all_ones (E m : Nat) (h : E % 2 ^ m ≠ 2 ^ m - 1) :
    (E + 1) % 2 ^ m = E % 2 ^ m + 1 := by
  have hm : 0 < 2 ^ m := Nat.two_pow_pos m
  have hr : E % 2 ^ m < 2 ^ m := Nat.mod_lt _ hm
  have h1 : E % 2 ^ m + 1 < 2 ^ m := by omega
  conv_lhs => rw [show E + 1 = 2 ^ m * (E / 2 ^ m) + (E % 2 ^ m + 1) by
    have := Nat.div_add_mod E (2 ^ m)
    omega]
  rw [Nat.mul_add_mod, Nat.mod_eq_of_lt h1]

theorem drop_append_singleton {α : Type} (es : List α) (e : α) (d : Nat)
    (h : d ≤ es.length) : (es ++ [e]).drop d = es.drop d ++ [e] := by
  rw [List.drop_append_eq_append_drop, show d - es.length = 0 by omega]
  rfl

/-- The tree which the MMR invariant predicts in slot `i` after the entries
`es`: occupied iff bit `i` of the entry count is set, holding the canonical
tree over the corresponding window of entries (a proof device). -/
def slotTree (es : List Bytes) (i : Nat) : Option PerfectMerkleTree :=
  if (es.length).testBit i then
    some ⟨canonTree i ((es.drop (es.length - es.length % 2 ^ (i + 1))).take (2 ^ i))⟩
  else none

theorem slotTree_append_stable (es : List Bytes) (e : Bytes) (i0 j : Nat)
    (hj : i0 < j) (hmod : es.length % 2 ^ (i0 + 1) = 2 ^ i0 - 1) :
    slotTree (es ++ [e]) j = slotTree es j := by
  have hpi : 0 < 2 ^ i0 := Nat.two_pow_pos i0
  have hss := two_pow_succ_eq i0
  have hne : ∀ m, i0 + 1 ≤ m → es.length % 2 ^ m ≠ 2 ^ m - 1 := by
    intro m hm hcon
    have h1 : es.length % 2 ^ (i0 + 1) = (2 ^ m - 1) % 2 ^ (i0 + 1) := by
      rw [← hcon, mod_pow_mod _ _ _ hm]
    rw [all_ones_mod m (i0 + 1) hm] at h1
    omega
  have hlen : (es ++ [e]).length = es.length + 1 := by simp
  have hnotj : es.length % 2 ^ (j + 1) ≠ 2 ^ j - 1 := by
    intro hcon
    have h1 : es.length % 2 ^ (i0 + 1) = (2 ^ j - 1) % 2 ^ (i0 + 1) := by
      rw [← hcon, mod_pow_mod _ _ _ (by omega)]
    rw [all_ones_mod j (i0 + 1) (by omega)] at h1
    omega
  have hsucc : (es.length + 1) % 2 ^ (j + 1) = es.length % 2 ^ (j + 1) + 1 :=
    succ_mod_of_ne_all_ones _ _ (hne (j + 1) (by omega))
  have hbit : (es.length + 1).testBit j = es.length.testBit j := by
    rcases hb : es.length.testBit j with _ | _
    · have hlt := (testBit_false_iff_mod_lt _ j).mp hb
      refine (testBit_false_iff_mod_lt _ j).mpr ?_
      rw [hsucc]
      omega
    · have hge := (testBit_iff_le_mod _ j).mp hb
      refine (testBit_iff_le_mod _ j).mpr ?_
      rw [hsucc]
      omega
  rw [slotTree, slotTree, hlen, hbit]
  rcases hb : es.length.testBit j with _ | _
  · rfl
  · rw [if_pos rfl, if_pos rfl]
    have hble := (testBit_iff_le_mod _ j).mp hb
    have hmle : es.length % 2 ^ (j + 1) ≤ es.length := Nat.mod_le _ _
    have hd_eq : es.length + 1 - (es.length + 1) % 2 ^ (j + 1)
        = es.length - es.length % 2 ^ (j + 1) := by
      rw [hsucc]
      omega
    rw [hd_eq]
    rw [drop_append_singleton es e _ (by omega)]
    rw [List.take_append_of_le_length (by
      rw [List.length_drop]
      omega)]

/-- Merging the occupied slot `i0` with the carry yields the canonical tree
of the last `2^(i0+1)` entries. -/
theorem merge_canon (es : List Bytes) (e : Bytes) (i0 : Nat)
    (hmod1 : es.length % 2 ^ (i0 + 1) = 2 ^ (i0 + 1) - 1) :
    MerkleNode.from_children
        (canonTree i0 ((es.drop (es.length - es.length % 2 ^ (i0 + 1))).take (2 ^ i0)))
        (canonTree i0 (lastN (2 ^ i0) (es ++ [e])))
      = canonTree (i0 + 1) (lastN (2 ^ (i0 + 1)) (es ++ [e])) := by
  have hpi : 0 < 2 ^ i0 := Nat.two_pow_pos i0
  have hss := two_pow_succ_eq i0
  have hEge : 2 ^ (i0 + 1) - 1 ≤ es.length := by
    rw [← hmod1]
    exact Nat.mod_le _ _
  have hlen : (es ++ [e]).length = es.length + 1 := by simp
  rw [show canonTree (i0 + 1) (lastN (2 ^ (i0 + 1)) (es ++ [e]))
      = MerkleNode.internal
          (canonTree i0 ((lastN (2 ^ (i0 + 1)) (es ++ [e])).take (2 ^ i0)))
          (canonTree i0 ((lastN (2 ^ (i0 + 1)) (es ++ [e])).drop (2 ^ i0)))
    from rfl]
  rw [MerkleNode.from_children]
  have htake : (lastN (2 ^ (i0 + 1)) (es ++ [e])).take (2 ^ i0)
      = (es.drop (es.length - es.length % 2 ^ (i0 + 1))).take (2 ^ i0) := by
    rw [lastN, hlen, hmod1]
    rw [show es.length + 1 - 2 ^ (i0 + 1) = es.length - (2 ^ (i0 + 1) - 1) by omega]
    rw [drop_append_singleton es e _ (by omega)]
    rw [List.take_append_of_le_length (by
      rw [List.length_drop]
      omega)]
  have hdrop : (lastN (2 ^ (i0 + 1)) (es ++ [e])).drop (2 ^ i0)
      = lastN (2 ^ i0) (es ++ [e]) := by
    rw [lastN, lastN, hlen, List.drop_drop]
    congr 1
    omega
  rw [htake, hdrop]

theorem addEntryLoop_spec (es : List Bytes) (e : Bytes) : ∀ (len i0 : Nat),
    es.length % 2 ^ i0 = 2 ^ i0 - 1 → 2 ^ i0 ≤ es.length + 1 →
    addEntryLoop (canonTree i0 (lastN (2 ^ i0) (es ++ [e])))
        ((List.range' i0 len).map (slotTree es))
      = (List.range' i0 len).map (slotTree (es ++ [e])) := by
  intro len
  induction len with
  | zero => intro i0 hmod hle; rfl
  | succ len ih =>
    intro i0 hmod hle
    have hpi : 0 < 2 ^ i0 := Nat.two_pow_pos i0
    have hss := two_pow_succ_eq i0
    have hlen : (es ++ [e]).length = es.length + 1 := by simp
    rw [show List.range' i0 (len + 1) = i0 :: List.range' (i0 + 1) len from rfl]
    simp only [List.map_cons]
    rcases hb : es.length.testBit i0 with _ | _
    · -- slot i0 free: the carry is installed here
      have hmod1 : es.length % 2 ^ (i0 + 1) = 2 ^ i0 - 1 := by
        rw [mod_succ_of_bit_false _ _ hb, hmod]
      have hsucc : (es.length + 1) % 2 ^ (i0 + 1) = 2 ^ i0 := by
        rw [succ_mod_of_ne_all_ones _ _ (by omega), hmod1]
        omega
      rw [show slotTree es i0 = none from by rw [slotTree, hb]; rfl]
      rw [show addEntryLoop (canonTree i0 (lastN (2 ^ i0) (es ++ [e])))
            (none :: (List.range' (i0 + 1) len).map (slotTree es))
          = some ⟨canonTree i0 (lastN (2 ^ i0) (es ++ [e]))⟩
            :: (List.range' (i0 + 1) len).map (slotTree es) from rfl]
      congr 1
      · rw [slotTree, hlen]
        rw [if_pos (by
          refine (testBit_iff_le_mod _ i0).mpr ?_
          rw [hsucc])]
        rw [hsucc]
        congr 3
        rw [lastN, hlen]
        rw [List.take_of_length_le (by
          rw [List.length_drop, hlen]
          omega)]
      · exact List.map_congr_left (fun j hj => by
          have hj' := (List.mem_range'_1.mp hj).1
          exact (slotTree_append_stable es e i0 j (by omega) hmod1).symm)
    · -- slot i0 occupied: take it and carry the merged tree
      have hmod1 : es.length % 2 ^ (i0 + 1) = 2 ^ (i0 + 1) - 1 := by
        rw [mod_succ_of_bit_true _ _ hb, hmod]
        omega
      have hzero : (es.length + 1) % 2 ^ (i0 + 1) = 0 := by
        conv_lhs => rw [show es.length + 1
            = 2 ^ (i0 + 1) * (es.length / 2 ^ (i0 + 1)) + 2 ^ (i0 + 1) by
          have := Nat.div_add_mod es.length (2 ^ (i0 + 1))
          omega]
        rw [show (2 : Nat) ^ (i0 + 1) * (es.length / 2 ^ (i0 + 1)) + 2 ^ (i0 + 1)
            = 2 ^ (i0 + 1) * (es.length / 2 ^ (i0 + 1) + 1) by ring]
        exact Nat.mul_mod_right _ _
      rw [show slotTree es i0 = some ⟨canonTree i0
            ((es.drop (es.length - es.length % 2 ^ (i0 + 1))).take (2 ^ i0))⟩ from by
        rw [slotTree, hb]
        rfl]
      rw [show addEntryLoop (canonTree i0 (lastN (2 ^ i0) (es ++ [e])))
            (some ⟨canonTree i0
              ((es.drop (es.length - es.length % 2 ^ (i0 + 1))).take (2 ^ i0))⟩
              :: (List.range' (i0 + 1) len).map (slotTree es))
          = none :: addEntryLoop
              (MerkleNode.from_children
                (canonTree i0
                  ((es.drop (es.length - es.length % 2 ^ (i0 + 1))).take (2 ^ i0)))
                (canonTree i0 (lastN (2 ^ i0) (es ++ [e]))))
              ((List.range' (i0 + 1) len).map (slotTree es)) from rfl]
      rw [merge_canon es e i0 hmod1]
      congr 1
      · rw [slotTree, hlen]
        rw [if_neg (by
          rw [Bool.not_eq_true]
          refine (testBit_false_iff_mod_lt _ i0).mpr ?_
          rw [hzero]
          exact hpi)]
      · refine ih (i0 + 1) hmod1 ?_
        have := Nat.mod_le es.length (2 ^ (i0 + 1))
        omega

theorem getLast?_map_range {α : Type} (f : Nat → α) (n : Nat) :
    ((List.range (n + 1)).map f).getLast? = some (f n) := by
  rw [List.range_succ, List.map_append]
  exact List.getLast?_concat _

/-- The full characterization of `MerkleMountainRange::new`: after appending
`es`, the slots are exactly `slotTree es` over `0 .. size(E)` (the last slot,
index `size(E)`, is unoccupied). -/
theorem mmr_new_spec (es : List Bytes) :
    MerkleMountainRange.new es
      = ⟨es, (List.range (Nat.size es.length + 1)).map (slotTree es)⟩ := by
  induction es using List.reverseRecOn with
  | nil =>
    simp only [MerkleMountainRange.new, List.foldl_nil, List.length_nil, Nat.size_zero]
    rw [show List.range 1 = [0] from rfl]
    rw [show List.map (slotTree []) [0] = [slotTree [] 0] from rfl]
    rw [show slotTree [] 0 = none from by
      rw [slotTree]
      rw [if_neg (by decide)]]
  | append_singleton es e ih =>
    rw [MerkleMountainRange.new, List.foldl_append, List.foldl_cons, List.foldl_nil]
    rw [show List.foldl (fun m e => m.add_entry e) ⟨[], [none]⟩ es
        = MerkleMountainRange.new es from rfl]
    rw [ih]
    simp only [MerkleMountainRange.add_entry]
    congr 1
    have hlen : (es ++ [e]).length = es.length + 1 := by simp
    have hcarry : MerkleNode.new_leaf e = canonTree 0 (lastN (2 ^ 0) (es ++ [e])) := by
      rw [pow_zero, lastN, hlen]
      rw [show es.length + 1 - 1 = es.length by omega]
      rw [drop_append_singleton es e es.length (le_refl _), List.drop_length]
      rfl
    have hloop := addEntryLoop_spec es e (Nat.size es.length + 1) 0
      (by rw [pow_zero, Nat.mod_one]; omega) (by rw [pow_zero]; omega)
    rw [hcarry]
    rw [show List.range (Nat.size es.length + 1)
        = List.range' 0 (Nat.size es.length + 1) from List.range_eq_range' _]
    rw [hloop]
    rw [← List.range_eq_range']
    rw [getLast?_map_range (slotTree (es ++ [e])) (Nat.size es.length)]
    have hElt : es.length < 2 ^ Nat.size es.length := Nat.size_le.mp (le_refl _)
    rcases lt_or_eq_of_le (by omega : es.length + 1 ≤ 2 ^ Nat.size es.length) with hlt | heq
    · have hbit : (es.length + 1).testBit (Nat.size es.length) = false :=
        Nat.testBit_lt_two_pow hlt
      rw [show slotTree (es ++ [e]) (Nat.size es.length) = none from by
        rw [slotTree, hlen, hbit]
        rfl]
      have hsize : Nat.size (es.length + 1) = Nat.size es.length :=
        le_antisymm (Nat.size_le.mpr hlt) (Nat.size_le_size (by omega))
      rw [hlen, hsize]
    · have hbit : (es.length + 1).testBit (Nat.size es.length) = true := by
        rw [heq]
        exact Nat.testBit_two_pow_self
      rw [show slotTree (es ++ [e]) (Nat.size es.length)
          = some ⟨canonTree (Nat.size es.length)
              (((es ++ [e]).drop ((es ++ [e]).length
                  - (es ++ [e]).length % 2 ^ (Nat.size es.length + 1))).take
                (2 ^ Nat.size es.length))⟩ from by
        rw [slotTree, hlen, hbit]
        rfl]
      have hsize : Nat.size (es.length + 1) = Nat.size es.length + 1 := by
        rw [heq, Nat.size_pow]
      show List.map (slotTree (es ++ [e])) (List.range (Nat.size es.length + 1)) ++ [none]
        = List.map (slotTree (es ++ [e])) (List.range (Nat.size (es ++ [e]).length + 1))
      rw [hlen, hsize]
      rw [List.range_succ (Nat.size es.length + 1), List.map_append]
      congr 1
      rw [List.map_cons, List.map_nil]
      rw [show slotTree (es ++ [e]) (Nat.size es.length + 1) = none from by
        rw [slotTree, hlen]
        rw [show (es.length + 1).testBit (Nat.size es.length + 1) = false from by
          refine Nat.testBit_lt_two_pow ?_
          rw [heq]
          have := two_pow_succ_eq (Nat.size es.length)
          have := Nat.two_pow_pos (Nat.size es.length)
          omega]
        rfl]

theorem mmr_trees_length (es : List Bytes) :
    (MerkleMountainRange.new es).trees.length = Nat.size es.length + 1 := by
  rw [mmr_new_spec]
  simp

theorem mmr_trees_getD (es : List Bytes) (i : Nat) :
    (MerkleMountainRange.new es).trees.getD i none
      = if i < Nat.size es.length + 1 then slotTree es i else none := by
  rw [mmr_new_spec]
  show ((List.range (Nat.size es.length + 1)).map (slotTree es)).getD i none = _
  rw [List.getD_eq_getElem?_getD, List.getElem?_map]
  by_cases h : i < Nat.size es.length + 1
  · rw [List.getElem?_range h, if_pos h]
    rfl
  · rw [if_neg h]
    rw [List.getElem?_eq_none (by simp; omega)]
    rfl

/-- C1: for every sequence of `E` appends into an MMR created empty, slot `i`
of the resulting trees vector is occupied iff bit `i` of `E` is 1 (bits at or
beyond the vector length are 0), an occupied slot `i` holds a perfect tree
with exactly `2^i` leaves (both as `num_leaves()` and as the count of stored
leaf values), and the last slot is unoccupied. -/
theorem C1_mmr_shape (es : List Bytes) :
    (∀ i, i < (MerkleMountainRange.new es).trees.length →
      (((MerkleMountainRange.new es).trees.getD i none).isSome
        ↔ es.length.testBit i = true))
    ∧ (∀ i, (MerkleMountainRange.new es).trees.length ≤ i → es.length.testBit i = false)
    ∧ (∀ i t, (MerkleMountainRange.new es).trees.getD i none = some t →
        t.num_leaves = 2 ^ i ∧ t.root.leafValues.length = 2 ^ i)
    ∧ (MerkleMountainRange.new es).trees.getLast? = some none := by
  have hElt : es.length < 2 ^ Nat.size es.length := Nat.size_le.mp (le_refl _)
  refine ⟨?_, ?_, ?_, ?_⟩
  · intro i hi
    rw [mmr_trees_length] at hi
    rw [mmr_trees_getD, if_pos hi, slotTree]
    rcases hb : es.length.testBit i with _ | _
    · simp
    · simp
  · intro i hi
    rw [mmr_trees_length] at hi
    refine Nat.testBit_lt_two_pow ?_
    calc es.length < 2 ^ Nat.size es.length := hElt
      _ ≤ 2 ^ i := Nat.pow_le_pow_right (by omega) (by omega)
  · intro i t ht
    rw [mmr_trees_getD] at ht
    by_cases h : i < Nat.size es.length + 1
    · rw [if_pos h, slotTree] at ht
      rcases hb : es.length.testBit i with _ | _
      · rw [hb] at ht
        simp at ht
      · rw [hb, if_pos rfl] at ht
        have ht' : t = ⟨canonTree i
            ((es.drop (es.length - es.length % 2 ^ (i + 1))).take (2 ^ i))⟩ := by
          exact (Option.some.injEq _ _ ▸ ht).symm
        subst ht'
        have hslice : ((es.drop (es.length - es.length % 2 ^ (i + 1))).take (2 ^ i)).length
            = 2 ^ i := by
          rw [List.length_take, List.length_drop]
          have h1 := Nat.mod_le es.length (2 ^ (i + 1))
          have h2 := (testBit_iff_le_mod es.length i).mp hb
          omega
        constructor
        · exact canon_num_leaves i _
        · rw [show (PerfectMerkleTree.mk (canonTree i
              ((es.drop (es.length - es.length % 2 ^ (i + 1))).take (2 ^ i)))).root
            = canonTree i ((es.drop (es.length - es.length % 2 ^ (i + 1))).take (2 ^ i))
            from rfl]
          rw [canonTree_leafValues i _ hslice, hslice]
    · rw [if_neg h] at ht
      exact absurd ht (by simp)
  · rw [mmr_new_spec]
    show ((List.range (Nat.size es.length + 1)).map (slotTree es)).getLast? = some none
    rw [getLast?_map_range]
    rw [show slotTree es (Nat.size es.length) = none from by
      rw [slotTree]
      rw [if_neg (by
        rw [Bool.not_eq_true]
        exact Nat.testBit_lt_two_pow hElt)]]

/-- Witness for C1 on the three-entry MMR. -/
theorem C1_mmr_shape_witness :
    (0 < (MerkleMountainRange.new [[1], [2], [3]]).trees.length
      ∧ (((MerkleMountainRange.new [[1], [2], [3]]).trees.getD 0 none).isSome
          ↔ ([[1], [2], [3]] : List Bytes).length.testBit 0 = true))
    ∧ ((MerkleMountainRange.new [[1], [2], [3]]).trees.length ≤ 7
      ∧ ([[1], [2], [3]] : List Bytes).length.testBit 7 = false)
    ∧ ((MerkleMountainRange.new [[1], [2], [3]]).trees.getD 1 none
        = some ⟨.internal (.leaf [1]) (.leaf [2])⟩
      ∧ (PerfectMerkleTree.mk (.internal (.leaf [1]) (.leaf [2]))).num_leaves = 2 ^ 1
      ∧ (PerfectMerkleTree.mk
          (.internal (.leaf [1]) (.leaf [2]))).root.leafValues.length = 2 ^ 1)
    ∧ (MerkleMountainRange.new [[1], [2], [3]]).trees.getLast? = some none := by
  refine ⟨⟨by decide, (C1_mmr_shape [[1], [2], [3]]).1 0 (by decide)⟩,
    ⟨by decide, (C1_mmr_shape [[1], [2], [3]]).2.1 7 (by decide)⟩,
    ⟨by decide, (C1_mmr_shape [[1], [2], [3]]).2.2.1 1 _ (by decide)⟩,
    (C1_mmr_shape [[1], [2], [3]]).2.2.2⟩

/-! ## The MMR most-recent-n round trip -/

/-- Whether slot `j` is fully covered by a proof of the most recent `n` of
`E` entries: the slot is occupied and everything in slots `≤ j` fits. -/
def fullSlotCond (E n j : Nat) : Bool := E.testBit j && decide (E % 2 ^ (j + 1) ≤ n)

/-- The window of entries stored in slot `i` (a proof device). -/
def sliceAt (es : List Bytes) (i : Nat) : List Bytes :=
  (es.drop (es.length - es.length % 2 ^ (i + 1))).take (2 ^ i)

theorem slotTree_pos (es : List Bytes) (i : Nat) (hb : es.length.testBit i = true) :
    slotTree es i = some ⟨canonTree i (sliceAt es i)⟩ := by
  rw [slotTree, hb, sliceAt]
  rfl

theorem sliceAt_length (es : List Bytes) (i : Nat) (hb : es.length.testBit i = true) :
    (sliceAt es i).length = 2 ^ i := by
  rw [sliceAt, List.length_take, List.length_drop]
  have h1 := Nat.mod_le es.length (2 ^ (i + 1))
  have h2 := (testBit_iff_le_mod es.length i).mp hb
  omega

theorem fullSlotCond_false_of_ge (E n s j : Nat) (hP : n ≤ E % 2 ^ s) (hj : s ≤ j) :
    fullSlotCond E n j = false := by
  rw [fullSlotCond]
  rcases hb : E.testBit j with _ | _
  · rfl
  · have hm := mod_succ_of_bit_true E j hb
    have hmono := mod_pow_mono E s j hj
    have hp : 0 < 2 ^ j := Nat.two_pow_pos j
    simp only [Bool.true_and, decide_eq_false_iff_not, not_le]
    omega

theorem filter_range_shrink (cond : Nat → Bool) (a b : Nat) (hab : a ≤ b)
    (hfalse : ∀ j, a ≤ j → cond j = false) :
    (List.range b).filter cond = (List.range a).filter cond := by
  induction b with
  | zero =>
    have : a = 0 := by omega
    rw [this]
  | succ b ih =>
    rcases Nat.lt_or_ge a (b + 1) with hlt | hge
    · rw [List.range_succ, List.filter_append, ih (by omega)]
      rw [show List.filter cond [b] = [] from by
        simp [List.filter, hfalse b (by omega)]]
      rw [List.append_nil]
    · have : a = b + 1 := by omega
      rw [this]

theorem proveLoop_zero (H : Bytes → Bytes → Bytes) (L : List (Option PerfectMerkleTree))
    (i : Nat) (acc : List Nat) : proveLoop H L i 0 acc = some (acc, none) := by
  cases L with
  | nil => rw [proveLoop.eq_def]; rfl
  | cons t ts => rw [proveLoop.eq_def]; rfl

theorem proveLoop_walk (H : Bytes → Bytes → Bytes) (es : List Bytes) (n s : Nat)
    (h1 : 1 ≤ n)
    (hP : n ≤ es.length % 2 ^ s)
    (hlt : ∀ j, j < s → es.length % 2 ^ j < n)
    (hsize : s ≤ Nat.size es.length) :
    ∀ d i acc, i + d = s → es.length % 2 ^ i ≤ n →
    proveLoop H ((List.range' i (Nat.size es.length + 1 - i)).map (slotTree es)) i
        (n - es.length % 2 ^ i) acc
      = some (acc ++ (List.range' i (Nat.size es.length + 1 - i)).filter
            (fun j => fullSlotCond es.length n j),
          if es.length % 2 ^ s = n then none
          else some (s - 1, ⟨n - es.length % 2 ^ (s - 1),
            suffixCollect H (s - 1) 0 (n - es.length % 2 ^ (s - 1))
              (sliceAt es (s - 1))⟩)) := by
  intro d
  induction d with
  | zero =>
    intro i acc hi hple
    have hi' : i = s := by omega
    subst hi'
    have heq : es.length % 2 ^ i = n := by omega
    rw [if_pos heq]
    rw [heq, Nat.sub_self, proveLoop_zero]
    rw [List.filter_eq_nil_iff.mpr (by
      intro j hj
      have hj' := (List.mem_range'_1.mp hj).1
      simp only [Bool.not_eq_true]
      exact fullSlotCond_false_of_ge es.length n i j (by omega) hj')]
    rw [List.append_nil]
  | succ d ih =>
    intro i acc hi hple
    have his : i < s := by omega
    have hilt : es.length % 2 ^ i < n := hlt i his
    have hisize : i < Nat.size es.length := by omega
    rw [show Nat.size es.length + 1 - i = (Nat.size es.length - i) + 1 by omega]
    rw [show List.range' i ((Nat.size es.length - i) + 1)
        = i :: List.range' (i + 1) (Nat.size es.length - i) from rfl]
    rw [List.map_cons]
    rw [proveLoop.eq_def]
    simp only []
    rw [if_neg (by omega : ¬(n - es.length % 2 ^ i = 0))]
    rcases hb : es.length.testBit i with _ | _
    · -- empty slot: skip
      have hm := mod_succ_of_bit_false es.length i hb
      rw [show slotTree es i = none from by rw [slotTree, hb]; rfl]
      have hrec := ih (i + 1) acc (by omega) (by omega)
      rw [show Nat.size es.length + 1 - (i + 1) = Nat.size es.length - i by omega] at hrec
      rw [show n - es.length % 2 ^ (i + 1) = n - es.length % 2 ^ i by omega] at hrec
      rw [hrec]
      rw [List.filter_cons_of_neg (by
        simp only [Bool.not_eq_true, fullSlotCond, hb, Bool.false_and])]
    · -- occupied slot
      have hm := mod_succ_of_bit_true es.length i hb
      have hp : 0 < 2 ^ i := Nat.two_pow_pos i
      rw [slotTree_pos es i hb]
      simp only []
      rw [canon_num_leaves]
      rcases le_or_lt (es.length % 2 ^ (i + 1)) n with hfull | hpart
      · -- the tree fits: take it fully
        rw [if_pos (by omega : 2 ^ i ≤ n - es.length % 2 ^ i)]
        have hrec := ih (i + 1) (acc ++ [i]) (by omega) hfull
        rw [show Nat.size es.length + 1 - (i + 1) = Nat.size es.length - i by omega] at hrec
        rw [show n - es.length % 2 ^ i - 2 ^ i = n - es.length % 2 ^ (i + 1) by omega]
        rw [hrec]
        rw [List.filter_cons_of_pos (by
          rw [fullSlotCond, hb]
          simp only [Bool.true_and, decide_eq_true_eq]
          exact hfull)]
        simp
      · -- the tree does not fit: emit the partial proof and stop
        rw [if_neg (by omega : ¬(2 ^ i ≤ n - es.length % 2 ^ i))]
        have hs_eq : s = i + 1 := by
          rcases Nat.lt_or_ge (i + 1) s with hc | hc
          · exact absurd (hlt (i + 1) hc) (by omega)
          · omega
        rw [tree_prove_canon H i (n - es.length % 2 ^ i) (sliceAt es i) (by omega) (by omega)]
        rw [Option.map_some']
        rw [if_neg (by rw [hs_eq]; omega)]
        rw [show s - 1 = i by omega]
        rw [List.filter_eq_nil_iff.mpr (by
          intro j hj
          simp only [Bool.not_eq_true]
          rcases List.mem_cons.mp hj with hj0 | hj1
          · subst hj0
            rw [fullSlotCond, hb]
            simp only [Bool.true_and, decide_eq_false_iff_not, not_le]
            exact hpart
          · have hj' := (List.mem_range'_1.mp hj1).1
            exact fullSlotCond_false_of_ge es.length n s j hP (by omega))]
        rw [List.append_nil]

theorem verifyFullLoop_nil (H : Bytes → Bytes → Bytes) (m : MerkleMountainRange)
    (entries : List Bytes) (off total : Nat) :
    verifyFullLoop H m entries [] off total = some (off, total) := by
  rw [verifyFullLoop.eq_def]

theorem verifyFullLoop_cons (H : Bytes → Bytes → Bytes) (m : MerkleMountainRange)
    (entries : List Bytes) (ti : Nat) (rest : List Nat) (off total : Nat)
    (tree rc : PerfectMerkleTree)
    (h1 : ti < m.trees.length) (h2 : m.trees.getD ti none = some tree)
    (h3 : off + tree.num_leaves ≤ entries.length)
    (h4 : PerfectMerkleTree.new ((entries.drop off).take tree.num_leaves) = some rc)
    (h5 : rc.digest H = tree.digest H) :
    verifyFullLoop H m entries (ti :: rest) off total
      = verifyFullLoop H m entries rest (off + tree.num_leaves)
          (total + tree.num_leaves) := by
  rw [verifyFullLoop, if_pos h1, h2]
  show (if off + tree.num_leaves ≤ entries.length then
      match PerfectMerkleTree.new ((entries.drop off).take tree.num_leaves) with
      | some reconstructed =>
        if reconstructed.digest H = tree.digest H then
          verifyFullLoop H m entries rest (off + tree.num_leaves)
            (total + tree.num_leaves)
        else none
      | none => none
    else none) = _
  rw [if_pos h3, h4]
  show (if rc.digest H = tree.digest H then
      verifyFullLoop H m entries rest (off + tree.num_leaves) (total + tree.num_leaves)
    else none) = _
  rw [if_pos h5]

theorem verifyFullLoop_walk (H : Bytes → Bytes → Bytes) (es : List Bytes) (n : Nat)
    (h1 : 1 ≤ n) (hn : n ≤ es.length) :
    ∀ i, i ≤ Nat.size es.length + 1 → es.length % 2 ^ i ≤ n → ∀ total,
    verifyFullLoop H (MerkleMountainRange.new es) (lastN n es)
        (((List.range i).filter (fun j => fullSlotCond es.length n j)).reverse)
        (n - es.length % 2 ^ i) total
      = some (n, total + es.length % 2 ^ i) := by
  intro i
  induction i with
  | zero =>
    intro _ hple total
    rw [show (((List.range 0).filter (fun j => fullSlotCond es.length n j)).reverse
        : List Nat) = [] from rfl]
    rw [verifyFullLoop_nil]
    rw [show es.length % 2 ^ 0 = 0 from by rw [pow_zero, Nat.mod_one]]
    rw [Nat.sub_zero, Nat.add_zero]
  | succ i ih =>
    intro hi hple total
    rw [List.range_succ, List.filter_append, List.reverse_append]
    rcases hc : fullSlotCond es.length n i with _ | _
    · -- this slot is not part of the proof; it must be empty
      have hbfalse : es.length.testBit i = false := by
        rcases hbb : es.length.testBit i with _ | _
        · rfl
        · exfalso
          rw [fullSlotCond, hbb] at hc
          simp only [Bool.true_and, decide_eq_false_iff_not, not_le] at hc
          omega
      have hm := mod_succ_of_bit_false es.length i hbfalse
      rw [show List.filter (fun j => fullSlotCond es.length n j) [i] = [] from by
        simp [List.filter, hc]]
      rw [List.reverse_nil, List.nil_append]
      rw [hm]
      exact ih (by omega) (by omega) total
    · -- this slot is fully covered: the verifier rebuilds it
      rw [fullSlotCond] at hc
      rcases (Bool.and_eq_true _ _).mp hc with ⟨hb, hd⟩
      have hfull : es.length % 2 ^ (i + 1) ≤ n := of_decide_eq_true hd
      have hm := mod_succ_of_bit_true es.length i hb
      have hp : 0 < 2 ^ i := Nat.two_pow_pos i
      have hmle := Nat.mod_le es.length (2 ^ (i + 1))
      have hlast : (lastN n es).length = n := lastN_length n es (by omega)
      have hslice : ((lastN n es).drop (n - es.length % 2 ^ (i + 1))).take (2 ^ i)
          = sliceAt es i := by
        rw [lastN, List.drop_drop, sliceAt]
        rw [show es.length - n + (n - es.length % 2 ^ (i + 1))
            = es.length - es.length % 2 ^ (i + 1) by omega]
      rw [show List.filter (fun j => fullSlotCond es.length n j) [i] = [i] from by
        simp only [List.filter]
        rw [fullSlotCond, hc]]
      rw [show ([i] : List Nat).reverse = [i] from rfl, List.singleton_append]
      rw [verifyFullLoop_cons H (MerkleMountainRange.new es) (lastN n es) i
        (((List.range i).filter (fun j => fullSlotCond es.length n j)).reverse)
        (n - es.length % 2 ^ (i + 1)) total
        ⟨canonTree i (sliceAt es i)⟩ ⟨canonTree i (sliceAt es i)⟩
        (by rw [mmr_trees_length]; omega)
        (by rw [mmr_trees_getD, if_pos (by omega)]; exact slotTree_pos es i hb)
        (by rw [canon_num_leaves, hlast]; omega)
        (by
          rw [canon_num_leaves, hslice]
          exact new_canonTree i (sliceAt es i) (sliceAt_length es i hb))
        rfl]
      rw [canon_num_leaves]
      have hrec := ih (by omega) (by omega) (total + 2 ^ i)
      rw [show n - es.length % 2 ^ (i + 1) + 2 ^ i = n - es.length % 2 ^ i by omega]
      rw [hrec]
      rw [hm]
      rw [show total + 2 ^ i + es.length % 2 ^ i
          = total + (es.length % 2 ^ i + 2 ^ i) by omega]

theorem mmr_entries (es : List Bytes) : (MerkleMountainRange.new es).entries = es := by
  rw [mmr_new_spec]

theorem mmr_trees (es : List Bytes) : (MerkleMountainRange.new es).trees
    = (List.range (Nat.size es.length + 1)).map (slotTree es) := by
  rw [mmr_new_spec]

theorem verifyPartStep_none (H : Bytes → Bytes → Bytes) (m : MerkleMountainRange)
    (e : List Bytes) (fti : List Nat) :
    verifyPartStep H m ⟨e, fti, none⟩ = some (0, 0) := rfl

theorem verifyPartStep_eval (H : Bytes → Bytes → Bytes) (m : MerkleMountainRange)
    (e : List Bytes) (fti : List Nat) (ti : Nat) (sp : SuffixProof)
    (tree : PerfectMerkleTree)
    (h1 : ti < m.trees.length) (h2 : m.trees.getD ti none = some tree)
    (h3 : sp.num_suffix_elements ≤ e.length)
    (h4 : tree.verify_suffix_proof H (e.take sp.num_suffix_elements) sp = some ()) :
    verifyPartStep H m ⟨e, fti, some (ti, sp)⟩
      = some (sp.num_suffix_elements, sp.num_suffix_elements) := by
  rw [verifyPartStep]
  show (if ti < m.trees.length then
      match m.trees.getD ti none with
      | some tree =>
        if sp.num_suffix_elements ≤ e.length then
          match tree.verify_suffix_proof H (e.take sp.num_suffix_elements) sp with
          | some _ => some (sp.num_suffix_elements, sp.num_suffix_elements)
          | none => none
        else none
      | none => none
    else none) = _
  rw [if_pos h1, h2]
  show (if sp.num_suffix_elements ≤ e.length then
      match tree.verify_suffix_proof H (e.take sp.num_suffix_elements) sp with
      | some _ => some (sp.num_suffix_elements, sp.num_suffix_elements)
      | none => none
    else none) = _
  rw [if_pos h3, h4]

/-- C2: for every MMR built by appending `E` entries with `1 ≤ E ≤ 1000` and
every `1 ≤ n ≤ E`, the proof returned by `prove_most_recent_n_elements(n)`
passes `verify_most_recent_n_elements`.  The claim's bound `E ≤ 1000` is a
hypothesis; the proof holds for every `E ≥ 1`. -/
theorem C2_mmr_roundtrip (H : Bytes → Bytes → Bytes) (es : List Bytes) (n : Nat)
    (hE1 : 1 ≤ es.length) (hE2 : es.length ≤ 1000) (h1 : 1 ≤ n) (h2 : n ≤ es.length) :
    ∃ pf, (MerkleMountainRange.new es).prove_most_recent_n_elements H n = some pf
      ∧ (MerkleMountainRange.new es).verify_most_recent_n_elements H pf = some () := by
  have hEsize : es.length % 2 ^ Nat.size es.length = es.length :=
    Nat.mod_eq_of_lt (Nat.size_le.mp (le_refl _))
  have hEx : ∃ i, n ≤ es.length % 2 ^ i := ⟨Nat.size es.length, by rw [hEsize]; exact h2⟩
  obtain ⟨s, hP, hmin⟩ :
      ∃ s, (n ≤ es.length % 2 ^ s) ∧ ∀ j, j < s → es.length % 2 ^ j < n := by
    refine ⟨Nat.find hEx, Nat.find_spec hEx, ?_⟩
    intro j hj
    have := Nat.find_min hEx hj
    omega
  have hsize : s ≤ Nat.size es.length := by
    by_contra hs
    push_neg at hs
    have := hmin (Nat.size es.length) hs
    rw [hEsize] at this
    omega
  have hs1 : 1 ≤ s := by
    by_contra h0
    push_neg at h0
    have hs0 : s = 0 := by omega
    rw [hs0, pow_zero, Nat.mod_one] at hP
    omega
  have hwalk0 := proveLoop_walk H es n s h1 hP hmin hsize s 0 []
    (by omega) (by rw [pow_zero, Nat.mod_one]; omega)
  rw [Nat.sub_zero, pow_zero, Nat.mod_one, Nat.sub_zero, List.nil_append] at hwalk0
  have hprove : (MerkleMountainRange.new es).prove_most_recent_n_elements H n
      = some ⟨lastN n es,
          (List.range (Nat.size es.length + 1)).filter
            (fun j => fullSlotCond es.length n j),
          if es.length % 2 ^ s = n then none
          else some (s - 1, ⟨n - es.length % 2 ^ (s - 1),
            suffixCollect H (s - 1) 0 (n - es.length % 2 ^ (s - 1))
              (sliceAt es (s - 1))⟩)⟩ := by
    rw [MerkleMountainRange.prove_most_recent_n_elements, mmr_entries, mmr_trees]
    rw [if_pos h2]
    rw [List.range_eq_range']
    rw [hwalk0]
    rw [← List.range_eq_range']
    rfl
  have hlastlen : (lastN n es).length = n := lastN_length n es (by omega)
  have hne_entries : ¬((lastN n es).isEmpty = true) := by
    rw [List.isEmpty_iff_length_eq_zero, hlastlen]
    omega
  refine ⟨_, hprove, ?_⟩
  rw [MerkleMountainRange.verify_most_recent_n_elements]
  by_cases hcase : es.length % 2 ^ s = n
  · -- the suffix is an exact span of full trees
    rw [if_pos hcase]
    rw [if_neg hne_entries]
    rw [verifyPartStep_none]
    show (match verifyFullLoop H (MerkleMountainRange.new es) (lastN n es)
        (((List.range (Nat.size es.length + 1)).filter
          (fun j => fullSlotCond es.length n j)).reverse) 0 0 with
      | none => none
      | some (_, total) =>
        if total = (lastN n es).length then some () else none) = some ()
    rw [filter_range_shrink (fun j => fullSlotCond es.length n j) s
      (Nat.size es.length + 1) (by omega)
      (fun j hj => fullSlotCond_false_of_ge es.length n s j hP hj)]
    have hw := verifyFullLoop_walk H es n h1 h2 s (by omega) (by omega) 0
    rw [hcase, Nat.sub_self, Nat.zero_add] at hw
    rw [hw]
    show (if n = (lastN n es).length then some () else none) = some ()
    rw [hlastlen, if_pos rfl]
  · -- one partial tree at slot s − 1
    rw [if_neg hcase]
    rw [if_neg hne_entries]
    obtain ⟨t, hst⟩ : ∃ t, s = t + 1 := ⟨s - 1, by omega⟩
    subst hst
    simp only [Nat.add_sub_cancel] at *
    have hbt : es.length.testBit t = true := by
      rcases hbb : es.length.testBit t with _ | _
      · exfalso
        have hmf := mod_succ_of_bit_false es.length t hbb
        have := hmin t (by omega)
        omega
      · rfl
    have hmt := mod_succ_of_bit_true es.length t hbt
    have hnlt : n < es.length % 2 ^ (t + 1) := by omega
    have hmint := hmin t (by omega)
    have hpe1 : 1 ≤ n - es.length % 2 ^ t := by omega
    have hpe2 : n - es.length % 2 ^ t ≤ 2 ^ t := by omega
    have hpt : 0 < 2 ^ t := Nat.two_pow_pos t
    have hmlet := Nat.mod_le es.length (2 ^ (t + 1))
    have hTake : (lastN n es).take (n - es.length % 2 ^ t)
        = lastN (n - es.length % 2 ^ t) (sliceAt es t) := by
      rw [lastN, lastN, sliceAt_length es t hbt, sliceAt]
      rw [List.drop_take, List.drop_drop]
      rw [show 2 ^ t - (2 ^ t - (n - es.length % 2 ^ t)) = n - es.length % 2 ^ t by omega]
      rw [show es.length - es.length % 2 ^ (t + 1) + (2 ^ t - (n - es.length % 2 ^ t))
            = es.length - n by omega]
    have hpart := verifyPartStep_eval H (MerkleMountainRange.new es) (lastN n es)
      ((List.range (Nat.size es.length + 1)).filter (fun j => fullSlotCond es.length n j))
      t ⟨n - es.length % 2 ^ t,
        suffixCollect H t 0 (n - es.length % 2 ^ t) (sliceAt es t)⟩
      ⟨canonTree t (sliceAt es t)⟩
      (by rw [mmr_trees_length]; omega)
      (by rw [mmr_trees_getD, if_pos (by omega)]; exact slotTree_pos es t hbt)
      (by rw [hlastlen]; show n - es.length % 2 ^ t ≤ n; omega)
      (by
        show (⟨canonTree t (sliceAt es t)⟩ : PerfectMerkleTree).verify_suffix_proof H
          ((lastN n es).take (n - es.length % 2 ^ t))
          ⟨n - es.length % 2 ^ t,
            suffixCollect H t 0 (n - es.length % 2 ^ t) (sliceAt es t)⟩ = some ()
        rw [hTake]
        exact tree_verify_canon H t (n - es.length % 2 ^ t) (sliceAt es t)
          (sliceAt_length es t hbt) hpe1 hpe2)
    rw [hpart]
    show (match verifyFullLoop H (MerkleMountainRange.new es) (lastN n es)
        (((List.range (Nat.size es.length + 1)).filter
          (fun j => fullSlotCond es.length n j)).reverse)
        (n - es.length % 2 ^ t) (n - es.length % 2 ^ t) with
      | none => none
      | some (_, total) =>
        if total = (lastN n es).length then some () else none) = some ()
    rw [filter_range_shrink (fun j => fullSlotCond es.length n j) t
      (Nat.size es.length + 1) (by omega)
      (fun j hj => by
        rcases Nat.lt_or_ge j (t + 1) with hjt | hjt
        · have hjt' : j = t := by omega
          subst hjt'
          simp only [fullSlotCond, hbt, Bool.true_and, decide_eq_false_iff_not, not_le]
          omega
        · exact fullSlotCond_false_of_ge es.length n (t + 1) j hP hjt)]
    have hw := verifyFullLoop_walk H es n h1 h2 t (by omega) (by omega)
      (n - es.length % 2 ^ t)
    rw [hw]
    show (if n - es.length % 2 ^ t + es.length % 2 ^ t = (lastN n es).length then some ()
      else none) = some ()
    rw [hlastlen]
    rw [if_pos (by omega)]

/-- Witness for C2 at a concrete input: three entries, suffix of length two
(which exercises the partial-tree branch of the verifier). -/
theorem C2_mmr_roundtrip_witness :
    1 ≤ ([[1], [2], [3]] : List Bytes).length ∧
    ([[1], [2], [3]] : List Bytes).length ≤ 1000 ∧
    (1 : Nat) ≤ 2 ∧ 2 ≤ ([[1], [2], [3]] : List Bytes).length ∧
    ∃ pf, (MerkleMountainRange.new [[1], [2], [3]]).prove_most_recent_n_elements
            (fun a b => a ++ b) 2 = some pf
      ∧ (MerkleMountainRange.new [[1], [2], [3]]).verify_most_recent_n_elements
            (fun a b => a ++ b) pf = some () :=
  ⟨by decide, by decide, by decide, by decide,
    C2_mmr_roundtrip (fun a b => a ++ b) [[1], [2], [3]] 2
      (by decide) (by decide) (by decide) (by decide)⟩

/-! ## Skip lists (src/skip-lists/src/main.rs)

Bytes are `List Nat` as before.  Sha256 is an abstract parameter
`Hs : List Nat → List Nat` applied to the concatenation of all bytes fed to
the incremental hasher, and bcs serialization of a value of type `V` is an
abstract parameter `ser : V → List Nat`.  `u64::to_le_bytes` is `le64`.
Rust's `HashMap<u64, Digest>` is embedded as an association list
`List (Nat × Bytes)`; `HashMap::get` is `List.lookup`.  Rust panics
(`panic!`, `expect`, `assert!`, index out of bounds, u64 underflow) become
`Option.none`. -/

def le64 (n : Nat) : List Nat :=
  (List.range 8).map (fun i => n / 256 ^ i % 256)

def DEFAULT_BASE : Nat := 10

/-- The `while x >= y` loop of `calculate_finger_indices`.  The loop is
embedded with an explicit iteration bound `fuel` (structural recursion);
for any `base ≥ 2` a fuel of `x + 1` is beyond the number of iterations the
Rust loop performs (established by `fingerLoop_mem`), so the embedding
agrees with the source on every input on which the source terminates.
(For `base ≤ 1` the Rust loop diverges or panics with a division by zero;
the only base used anywhere is `DEFAULT_BASE = 10`.) -/
def fingerLoop (base x : Nat) : Nat → Nat → List Nat → List Nat
  | 0, _, fingers => fingers
  | fuel + 1, y, fingers =>
    if y ≤ x then
      fingerLoop base x fuel (y * base)
        (if x / y * y ∈ fingers then fingers else fingers ++ [x / y * y])
    else fingers

def calculate_finger_indices (height base : Nat) : List Nat :=
  fingerLoop base (height - 1) (height - 1 + 1) 1 []

/-- Rust's `Node<T>` (named `SLNode` here to avoid clashing with the
Merkle `MerkleNode` above).  `fingers` is the association list standing for
the `HashMap<u64, Digest>`. -/
structure SLNode (V : Type) where
  value : V
  height : Nat
  fingers : List (Nat × Bytes)
deriving Repr, DecidableEq

/-- `Node::digest`: sha256 over bcs(value), height.to_le_bytes, then for
each finger index in ascending order the index bytes and the stored digest.
The `.expect("Finger not found")` on `fingers.get(&idx)` cannot fire (the
indices are the map's own keys), so the lookup's default is never used. -/
def SLNode.digest (Hs : List Nat → List Nat) (ser : V → List Nat)
    (n : SLNode V) : Bytes :=
  Hs (ser n.value ++ le64 n.height ++
    (List.insertionSort (fun a b => a ≤ b) (n.fingers.map Prod.fst)).foldl
      (fun acc k => acc ++ le64 k ++ (List.lookup k n.fingers).getD []) [])

/-- `Node::next_fingers`: iterate over the finger indices of the next
height; reuse the old finger when present, point a finger at the current
node when the index equals the current height, and otherwise hit the
`panic!("Unexpected idx …")` — embedded as `none`. -/
def SLNode.next_fingers (Hs : List Nat → List Nat) (ser : V → List Nat)
    (n : SLNode V) : Option (List (Nat × Bytes)) :=
  (calculate_finger_indices (n.height + 1) DEFAULT_BASE).foldl
    (fun acc idx =>
      acc.bind (fun h =>
        match List.lookup idx n.fingers with
        | some val => some (h ++ [(idx, val)])
        | none =>
          if idx = n.height then some (h ++ [(idx, n.digest Hs ser)])
          else none))
    (some [])

def SLNode.next (Hs : List Nat → List Nat) (ser : V → List Nat)
    (n : SLNode V) (new_value : V) : Option (SLNode V) :=
  (n.next_fingers Hs ser).map (fun f => ⟨new_value, n.height + 1, f⟩)

def SLNode.first (val : V) : SLNode V := ⟨val, 1, []⟩

structure SkipList (V : Type) where
  nodes : List (SLNode V)
deriving Repr, DecidableEq

/-- `SkipList::add`. -/
def SkipList.add (Hs : List Nat → List Nat) (ser : V → List Nat)
    (sl : SkipList V) (value : V) : Option (SkipList V) :=
  match sl.nodes.getLast? with
  | some node => (node.next Hs ser value).map (fun n => ⟨sl.nodes ++ [n]⟩)
  | none => some ⟨sl.nodes ++ [SLNode.first value]⟩

/-- A fresh `SkipList::new()` followed by one `add` per element. -/
def buildSkipList (Hs : List Nat → List Nat) (ser : V → List Nat)
    (vals : List V) : Option (SkipList V) :=
  vals.foldl (fun acc v => acc.bind (fun sl => sl.add Hs ser v)) (some ⟨[]⟩)

/-- Rust's `Iterator::min_by_key` (first minimal element wins). -/
def minByKey (f : Nat → Nat) (l : List Nat) : Option Nat :=
  l.foldl (fun acc x =>
    match acc with
    | none => some x
    | some b => if f x < f b then some x else some b) none

/-- The `while cur_node.height > h` loop of `get_inclusion_proof`, with an
explicit iteration bound.  `closest = 0` is the u64 underflow panic of
`*closest as usize - 1`; a missing index is the OOB panic. -/
def inclusionLoop (nodes : List (SLNode V)) (h : Nat) :
    Nat → SLNode V → List (SLNode V) → Option (List (SLNode V))
  | 0, _, _ => none
  | fuel + 1, cur, path =>
    if h < cur.height then
      match minByKey (fun finger => finger - h)
          ((cur.fingers.map Prod.fst).filter (fun finger => decide (h ≤ finger))) with
      | none => none
      | some closest =>
        if closest = 0 then none
        else
          match nodes[closest - 1]? with
          | none => none
          | some nxt => inclusionLoop nodes h fuel nxt (path ++ [cur])
    else if cur.height < h then none
    else some path

/-- `SkipList::get_inclusion_proof`.  The leading `assert!` and the
`.expect("One node must exist")` are the two early panics. -/
def SkipList.get_inclusion_proof (sl : SkipList V) (h : Nat) :
    Option (List (SLNode V)) :=
  if h ≤ sl.nodes.length then
    match sl.nodes.getLast? with
    | none => none
    | some cur => inclusionLoop sl.nodes h (sl.nodes.length + 1) cur []
  else none

theorem lookup_isSome_iff_mem_keys (k : Nat) (l : List (Nat × Bytes)) :
    (List.lookup k l).isSome ↔ k ∈ l.map Prod.fst := by
  induction l with
  | nil => simp [List.lookup]
  | cons p t ih =>
    rcases p with ⟨a, b⟩
    by_cases hka : k = a
    · subst hka
      simp [List.lookup]
    · have hb : (k == a) = false := beq_eq_false_iff_ne.mpr hka
      simp only [List.lookup, hb, List.map_cons, List.mem_cons]
      rw [ih]
      simp [hka]

theorem digestFold_congr (f₁ f₂ : List (Nat × Bytes))
    (hlook : ∀ k, List.lookup k f₁ = List.lookup k f₂) :
    ∀ (ks : List Nat) (acc : List Nat),
      ks.foldl (fun acc k => acc ++ le64 k ++ (List.lookup k f₁).getD []) acc
        = ks.foldl (fun acc k => acc ++ le64 k ++ (List.lookup k f₂).getD []) acc := by
  intro ks
  induction ks with
  | nil => intro acc; rfl
  | cons k t ih =>
    intro acc
    simp only [List.foldl_cons, hlook k]
    exact ih _

/-- C10: `Node::digest` is a function of the serialized value, the height
and the finger key-to-digest mapping alone: two nodes with equal serialized
values, equal heights and equal finger mappings (same lookups, duplicate-free
keys) have identical digests, independently of the order in which the
fingers are stored, because the keys are hashed in ascending sorted order. -/
theorem C10_digest_order_independence (Hs : List Nat → List Nat)
    (ser : V → List Nat) (n₁ n₂ : SLNode V)
    (hser : ser n₁.value = ser n₂.value)
    (hh : n₁.height = n₂.height)
    (hnd₁ : (n₁.fingers.map Prod.fst).Nodup)
    (hnd₂ : (n₂.fingers.map Prod.fst).Nodup)
    (hlook : ∀ k, List.lookup k n₁.fingers = List.lookup k n₂.fingers) :
    n₁.digest Hs ser = n₂.digest Hs ser := by
  have hmem : ∀ k, k ∈ n₁.fingers.map Prod.fst ↔ k ∈ n₂.fingers.map Prod.fst := by
    intro k
    rw [← lookup_isSome_iff_mem_keys, ← lookup_isSome_iff_mem_keys, hlook k]
  have hperm : List.Perm (n₁.fingers.map Prod.fst) (n₂.fingers.map Prod.fst) :=
    (List.perm_ext_iff_of_nodup hnd₁ hnd₂).mpr hmem
  have hkeq : List.insertionSort (fun a b => a ≤ b) (n₁.fingers.map Prod.fst)
      = List.insertionSort (fun a b => a ≤ b) (n₂.fingers.map Prod.fst) :=
    List.eq_of_perm_of_sorted
      ((List.perm_insertionSort _ _).trans
        (hperm.trans (List.perm_insertionSort _ _).symm))
      (List.sorted_insertionSort _ _) (List.sorted_insertionSort _ _)
  rw [SLNode.digest, SLNode.digest, hser, hh, hkeq,
    digestFold_congr n₁.fingers n₂.fingers hlook]

/-- Witness for C10: the same two fingers stored in the two possible
orders give the same digest. -/
theorem C10_digest_order_independence_witness :
    (∀ k, List.lookup k ([(1, [7]), (2, [9])] : List (Nat × Bytes))
        = List.lookup k ([(2, [9]), (1, [7])] : List (Nat × Bytes))) ∧
    (⟨5, 3, [(1, [7]), (2, [9])]⟩ : SLNode Nat).digest (fun l => l) (fun v => [v])
      = (⟨5, 3, [(2, [9]), (1, [7])]⟩ : SLNode Nat).digest (fun l => l) (fun v => [v]) := by
  have hlook : ∀ k, List.lookup k ([(1, [7]), (2, [9])] : List (Nat × Bytes))
      = List.lookup k ([(2, [9]), (1, [7])] : List (Nat × Bytes)) := by
    intro k
    match k with
    | 0 => rfl
    | 1 => rfl
    | 2 => rfl
    | (m + 3) => rfl
  exact ⟨hlook,
    C10_digest_order_independence (fun l => l) (fun v => [v])
      ⟨5, 3, [(1, [7]), (2, [9])]⟩ ⟨5, 3, [(2, [9]), (1, [7])]⟩
      rfl rfl (by decide) (by decide) hlook⟩

theorem fingerLoop_zero (base x y : Nat) (acc : List Nat) :
    fingerLoop base x 0 y acc = acc := rfl

theorem fingerLoop_succ (base x fuel y : Nat) (acc : List Nat) :
    fingerLoop base x (fuel + 1) y acc =
      if y ≤ x then
        fingerLoop base x fuel (y * base)
          (if x / y * y ∈ acc then acc else acc ++ [x / y * y])
      else acc := rfl

/-- Elements collected by the finger loop: exactly the values
`(x / (y·baseʲ)) · (y·baseʲ)` for the multipliers `y·baseʲ ≤ x`, provided
the fuel covers all iterations (`x < y · base ^ fuel`). -/
theorem fingerLoop_mem (base x : Nat) (hb : 2 ≤ base) :
    ∀ (fuel y : Nat) (acc : List Nat), 1 ≤ y → x < y * base ^ fuel →
      ∀ z, (z ∈ fingerLoop base x fuel y acc ↔
        z ∈ acc ∨ ∃ j, y * base ^ j ≤ x ∧ z = x / (y * base ^ j) * (y * base ^ j)) := by
  intro fuel
  induction fuel with
  | zero =>
    intro y acc hy hsuff z
    rw [fingerLoop_zero]
    rw [pow_zero, mul_one] at hsuff
    constructor
    · exact Or.inl
    · rintro (hz | ⟨j, hj, _⟩)
      · exact hz
      · exfalso
        have hyle : y ≤ y * base ^ j := by
          have h0 : 1 ≤ base ^ j := Nat.one_le_pow j base (by omega)
          calc y = y * 1 := (mul_one y).symm
          _ ≤ y * base ^ j := Nat.mul_le_mul_left y h0
        omega
  | succ fuel ih =>
    intro y acc hy hsuff z
    rw [fingerLoop_succ]
    by_cases hxy : y ≤ x
    · rw [if_pos hxy]
      have hy' : 1 ≤ y * base := Nat.mul_pos hy (by omega)
      have hsuff' : x < y * base * base ^ fuel := by
        have heq : y * base * base ^ fuel = y * base ^ (fuel + 1) := by ring
        omega
      rw [ih (y * base) _ hy' hsuff' z]
      have hacc' : ∀ w : Nat,
          w ∈ (if x / y * y ∈ acc then acc else acc ++ [x / y * y]) ↔
            w ∈ acc ∨ w = x / y * y := by
        intro w
        by_cases hmem : x / y * y ∈ acc
        · rw [if_pos hmem]
          constructor
          · exact Or.inl
          · rintro (h | h)
            · exact h
            · rw [h]; exact hmem
        · rw [if_neg hmem]
          simp [List.mem_append]
      rw [hacc' z]
      have hshift : ∀ j, y * base * base ^ j = y * base ^ (j + 1) := by
        intro j; ring
      constructor
      · rintro ((hz | hz0) | ⟨j, hj, hzj⟩)
        · exact Or.inl hz
        · exact Or.inr ⟨0, by simpa using hxy, by simpa using hz0⟩
        · exact Or.inr ⟨j + 1, by rw [← hshift]; exact hj, by rw [← hshift]; exact hzj⟩
      · rintro (hz | ⟨j, hj, hzj⟩)
        · exact Or.inl (Or.inl hz)
        · cases j with
          | zero => exact Or.inl (Or.inr (by simpa using hzj))
          | succ j =>
            exact Or.inr ⟨j, by rw [hshift]; exact hj, by rw [hshift]; exact hzj⟩
    · rw [if_neg hxy]
      constructor
      · exact Or.inl
      · rintro (hz | ⟨j, hj, _⟩)
        · exact hz
        · exfalso
          have hyle : y ≤ y * base ^ j := by
            have h0 : 1 ≤ base ^ j := Nat.one_le_pow j base (by omega)
            calc y = y * 1 := (mul_one y).symm
            _ ≤ y * base ^ j := Nat.mul_le_mul_left y h0
          omega

/-- Membership in `calculate_finger_indices`: the values `((h−1)/bʲ)·bʲ`
for `bʲ ≤ h − 1`. -/
theorem calc_mem (b h z : Nat) (hb : 2 ≤ b) :
    z ∈ calculate_finger_indices h b ↔
      ∃ j, b ^ j ≤ h - 1 ∧ z = (h - 1) / b ^ j * b ^ j := by
  have hsuff : h - 1 < 1 * b ^ (h - 1 + 1) := by
    have h2 : h - 1 < 2 ^ (h - 1) := Nat.lt_two_pow _
    have h3 : 2 ^ (h - 1) ≤ 2 ^ (h - 1 + 1) := Nat.pow_le_pow_right (by omega) (by omega)
    have h4 : 2 ^ (h - 1 + 1) ≤ b ^ (h - 1 + 1) := Nat.pow_le_pow_left hb _
    rw [one_mul]
    omega
  rw [calculate_finger_indices,
    fingerLoop_mem b (h - 1) hb (h - 1 + 1) 1 [] (le_refl 1) hsuff z]
  simp [one_mul]

/-- Every finger index of height `h` is at most `h − 1`. -/
theorem calc_le (b h z : Nat) (hb : 2 ≤ b)
    (hz : z ∈ calculate_finger_indices h b) : z ≤ h - 1 := by
  rcases (calc_mem b h z hb).mp hz with ⟨j, _, hzj⟩
  rw [hzj]
  exact Nat.div_mul_le_self _ _

/-- A finger index of height `L + 1` is either `L` itself or already a
finger index of height `L`.  (This is what makes `next_fingers` total.) -/
theorem calc_succ_subset (b L idx : Nat) (hb : 2 ≤ b)
    (h : idx ∈ calculate_finger_indices (L + 1) b) :
    idx = L ∨ idx ∈ calculate_finger_indices L b := by
  rcases (calc_mem b (L + 1) idx hb).mp h with ⟨j, hj, hzj⟩
  rw [Nat.add_sub_cancel] at hj hzj
  have hm1 : 1 ≤ b ^ j := Nat.one_le_pow j b (by omega)
  have hdm := Nat.div_add_mod L (b ^ j)
  by_cases hr : L % b ^ j = 0
  · left
    rw [hzj]
    exact Nat.div_mul_cancel (Nat.dvd_of_mod_eq_zero hr)
  · right
    apply (calc_mem b L idx hb).mpr
    refine ⟨j, ?_, ?_⟩
    · have hne : b ^ j ≠ L := by
        intro he
        rw [he] at hr
        exact hr (Nat.mod_self L)
      omega
    · have h1 : 1 ≤ L % b ^ j := Nat.one_le_iff_ne_zero.mpr hr
      have hq : (L - 1) / b ^ j = L / b ^ j := by
        have hL1 : L - 1 = (L % b ^ j - 1) + b ^ j * (L / b ^ j) := by
          conv_lhs => rw [← hdm]
          rw [Nat.add_sub_assoc h1, Nat.add_comm]
        rw [hL1, Nat.add_mul_div_left _ _ hm1,
          Nat.div_eq_of_lt (Nat.lt_of_le_of_lt (Nat.sub_le _ _) (Nat.mod_lt _ hm1)),
          Nat.zero_add]
      rw [hq]
      exact hzj

theorem lookup_mem (k : Nat) (v : Bytes) (l : List (Nat × Bytes))
    (h : List.lookup k l = some v) : (k, v) ∈ l := by
  induction l with
  | nil => simp [List.lookup] at h
  | cons p t ih =>
    rcases p with ⟨a, b⟩
    by_cases hka : k = a
    · subst hka
      have hb : (k == k) = true := beq_self_eq_true k
      simp only [List.lookup, hb] at h
      rw [Option.some_inj] at h
      rw [← h]
      exact List.mem_cons_self _ _
    · have hb : (k == a) = false := beq_eq_false_iff_ne.mpr hka
      simp only [List.lookup, hb] at h
      exact List.mem_cons_of_mem _ (ih h)

/-- Evaluation of the `next_fingers` fold: if every index is either an old
finger key or the current height, the fold succeeds and produces one entry
per index, carrying the old digest when present and the current node's
digest for the index equal to the height. -/
theorem next_fingers_fold (Hs : List Nat → List Nat) (ser : V → List Nat)
    (n : SLNode V) :
    ∀ (idxs : List Nat) (h0 : List (Nat × Bytes)),
      (∀ idx ∈ idxs, idx ∈ n.fingers.map Prod.fst ∨ idx = n.height) →
      idxs.foldl
        (fun acc idx =>
          acc.bind (fun h =>
            match List.lookup idx n.fingers with
            | some val => some (h ++ [(idx, val)])
            | none =>
              if idx = n.height then some (h ++ [(idx, n.digest Hs ser)])
              else none))
        (some h0)
      = some (h0 ++ idxs.map
          (fun idx => (idx, (List.lookup idx n.fingers).getD (n.digest Hs ser)))) := by
  intro idxs
  induction idxs with
  | nil => intro h0 _; simp
  | cons idx t ih =>
    intro h0 hall
    rw [List.foldl_cons]
    rcases hl : List.lookup idx n.fingers with _ | val
    · have hidx : idx = n.height := by
        rcases hall idx (List.mem_cons_self _ _) with hk | hk
        · exfalso
          have := (lookup_isSome_iff_mem_keys idx n.fingers).mpr hk
          rw [hl] at this
          simp at this
        · exact hk
      simp only [Option.some_bind, hl, if_pos hidx]
      rw [ih (h0 ++ [(idx, n.digest Hs ser)])
        (fun i hi => hall i (List.mem_cons_of_mem _ hi))]
      simp [hl]
    · simp only [Option.some_bind, hl]
      rw [ih (h0 ++ [(idx, val)])
        (fun i hi => hall i (List.mem_cons_of_mem _ hi))]
      simp [hl]

/-- The construction invariant of C5: node `p` (0-based) has height
`p + 1`, its finger keys are exactly `calculate_finger_indices` of its
height, and every finger points at the digest of the node one below the
finger index. -/
def slInv (Hs : List Nat → List Nat) (ser : V → List Nat)
    (nodes : List (SLNode V)) : Prop :=
  ∀ p node, nodes[p]? = some node →
    node.height = p + 1 ∧
    node.fingers.map Prod.fst = calculate_finger_indices (p + 1) DEFAULT_BASE ∧
    ∀ k bs, (k, bs) ∈ node.fingers →
      ∃ prev, nodes[k - 1]? = some prev ∧ bs = prev.digest Hs ser

theorem map_fst_pair (g : Nat → Bytes) (l : List Nat) :
    (l.map (fun idx => (idx, g idx))).map Prod.fst = l := by
  induction l with
  | nil => rfl
  | cons a t ih => simp only [List.map_cons, ih]

theorem SkipList.add_eq (Hs : List Nat → List Nat) (ser : V → List Nat)
    (nodes : List (SLNode V)) (v : V) :
    SkipList.add Hs ser ⟨nodes⟩ v =
      match nodes.getLast? with
      | some node => (node.next Hs ser v).map (fun n => ⟨nodes ++ [n]⟩)
      | none => some ⟨nodes ++ [SLNode.first v]⟩ := rfl

/-- One `add` preserves the skip-list construction invariant: the new node
is appended, its height is one more, and its fingers are resolved without
reaching the `panic!("Unexpected idx …")` branch. -/
theorem add_preserves (Hs : List Nat → List Nat) (ser : V → List Nat)
    (nodes : List (SLNode V)) (hinv : slInv Hs ser nodes) (v : V) :
    ∃ nd, SkipList.add Hs ser ⟨nodes⟩ v = some ⟨nodes ++ [nd]⟩ ∧
      slInv Hs ser (nodes ++ [nd]) := by
  rcases hlast : nodes.getLast? with _ | last
  · have hnil : nodes = [] := List.getLast?_eq_none_iff.mp hlast
    subst hnil
    refine ⟨SLNode.first v, rfl, ?_⟩
    intro p node hp
    cases p with
    | zero =>
      simp only [List.nil_append] at hp
      have hnode : node = SLNode.first v := by simpa using hp.symm
      subst hnode
      refine ⟨rfl, rfl, ?_⟩
      intro k bs hkbs
      simp [SLNode.first] at hkbs
    | succ p =>
      simp only [List.nil_append] at hp
      simp at hp
  · have hlast' : nodes[nodes.length - 1]? = some last := by
      rw [← hlast, List.getLast?_eq_getElem?]
    have hLpos : 0 < nodes.length := by
      rcases List.getElem?_eq_some.mp hlast' with ⟨hlt, _⟩
      omega
    obtain ⟨hheight, hkeys, hptr⟩ := hinv (nodes.length - 1) last hlast'
    rw [(by omega : nodes.length - 1 + 1 = nodes.length)] at hheight hkeys
    have hall : ∀ idx ∈ calculate_finger_indices (last.height + 1) DEFAULT_BASE,
        idx ∈ last.fingers.map Prod.fst ∨ idx = last.height := by
      intro idx hidx
      rw [hheight] at hidx
      rcases calc_succ_subset DEFAULT_BASE nodes.length idx
        (by norm_num [DEFAULT_BASE]) hidx with h | h
      · right; rw [hheight, h]
      · left; rw [hkeys]; exact h
    have hnf := next_fingers_fold Hs ser last
      (calculate_finger_indices (last.height + 1) DEFAULT_BASE) [] hall
    rw [List.nil_append] at hnf
    set F := (calculate_finger_indices (last.height + 1) DEFAULT_BASE).map
      (fun idx => (idx, (List.lookup idx last.fingers).getD (last.digest Hs ser)))
      with hF
    have hnf' : last.next_fingers Hs ser = some F := by
      rw [SLNode.next_fingers]
      exact hnf
    refine ⟨⟨v, last.height + 1, F⟩, ?_, ?_⟩
    · rw [SkipList.add_eq, hlast]
      show Option.map (fun n => (⟨nodes ++ [n]⟩ : SkipList V)) (SLNode.next Hs ser last v)
        = some ⟨nodes ++ [⟨v, last.height + 1, F⟩]⟩
      rw [SLNode.next, hnf', Option.map_some', Option.map_some']
    · intro p node hp
      by_cases hpL : p < nodes.length
      · rw [List.getElem?_append_left hpL] at hp
        obtain ⟨h1, h2, h3⟩ := hinv p node hp
        refine ⟨h1, h2, ?_⟩
        intro k bs hkbs
        obtain ⟨prev, hprev, hdg⟩ := h3 k bs hkbs
        have hkL : k - 1 < nodes.length := (List.getElem?_eq_some.mp hprev).1
        exact ⟨prev, by rw [List.getElem?_append_left hkL]; exact hprev, hdg⟩
      · have hplen : p < nodes.length + 1 := by
          rcases List.getElem?_eq_some.mp hp with ⟨hlt, _⟩
          simpa using hlt
        have hpeq : p = nodes.length := by omega
        subst hpeq
        rw [List.getElem?_concat_length, Option.some_inj] at hp
        subst hp
        refine ⟨?_, ?_, ?_⟩
        · show last.height + 1 = nodes.length + 1
          rw [hheight]
        · show F.map Prod.fst = calculate_finger_indices (nodes.length + 1) DEFAULT_BASE
          rw [hF, map_fst_pair, hheight]
        · intro k bs hkbs
          obtain ⟨idx, hidx, heq⟩ := List.mem_map.mp hkbs
          obtain ⟨hik, hbs⟩ := Prod.mk.injEq .. |>.mp heq
          subst hik
          rcases hl : List.lookup idx last.fingers with _ | val
          · have hidxL : idx = nodes.length := by
              rw [hheight] at hidx
              rcases calc_succ_subset DEFAULT_BASE nodes.length idx
                (by norm_num [DEFAULT_BASE]) hidx with h | h
              · exact h
              · exfalso
                have hm := (lookup_isSome_iff_mem_keys idx last.fingers).mpr
                  (by rw [hkeys]; exact h)
                rw [hl] at hm
                simp at hm
            refine ⟨last, ?_, ?_⟩
            · rw [hidxL,
                List.getElem?_append_left (by omega : nodes.length - 1 < nodes.length)]
              exact hlast'
            · rw [← hbs, hl]
              rfl
          · have hmem : (idx, val) ∈ last.fingers := lookup_mem _ _ _ hl
            obtain ⟨prev, hprev, hdg⟩ := hptr idx val hmem
            have hkL : idx - 1 < nodes.length := (List.getElem?_eq_some.mp hprev).1
            refine ⟨prev, ?_, ?_⟩
            · rw [List.getElem?_append_left hkL]
              exact hprev
            · rw [← hbs, hl, Option.getD_some]
              exact hdg

theorem buildSkipList_append (Hs : List Nat → List Nat) (ser : V → List Nat)
    (vals : List V) (v : V) :
    buildSkipList Hs ser (vals ++ [v])
      = (buildSkipList Hs ser vals).bind (fun sl => sl.add Hs ser v) := by
  simp [buildSkipList, List.foldl_append]

/-- Every sequence of `add`s succeeds and yields a skip list satisfying
the construction invariant `slInv`. -/
theorem buildSkipList_inv (Hs : List Nat → List Nat) (ser : V → List Nat)
    (vals : List V) :
    ∃ nodes, buildSkipList Hs ser vals = some ⟨nodes⟩ ∧
      nodes.length = vals.length ∧ slInv Hs ser nodes := by
  induction vals using List.reverseRecOn with
  | nil =>
    refine ⟨[], rfl, rfl, ?_⟩
    intro p node hp
    simp at hp
  | append_singleton vals v ih =>
    obtain ⟨nodes, hbuild, hlen, hinv⟩ := ih
    obtain ⟨nd, hadd, hinv'⟩ := add_preserves Hs ser nodes hinv v
    refine ⟨nodes ++ [nd], ?_, ?_, hinv'⟩
    · rw [buildSkipList_append, hbuild, Option.some_bind]
      exact hadd
    · simp [hlen]

/-- C5: for every skip list built by any sequence of `add` calls (any
hash, any serialization, any values), the node at 0-based position `p` has
height `p + 1`, its finger keys are exactly
`calculate_finger_indices(height, 10)` in that order, and every finger
`k ↦ d` satisfies `d = digest(nodes[k-1])`; in particular the
`panic!("Unexpected idx …")` branch of `next_fingers` is never reached
(the build always returns a skip list). -/
theorem C5_skiplist_invariants (Hs : List Nat → List Nat) (ser : V → List Nat)
    (vals : List V) :
    ∃ sl : SkipList V, buildSkipList Hs ser vals = some sl ∧
      sl.nodes.length = vals.length ∧
      ∀ p node, sl.nodes[p]? = some node →
        node.height = p + 1 ∧
        node.fingers.map Prod.fst = calculate_finger_indices node.height DEFAULT_BASE ∧
        ∀ k bs, (k, bs) ∈ node.fingers →
          ∃ prev, sl.nodes[k - 1]? = some prev ∧ bs = prev.digest Hs ser := by
  obtain ⟨nodes, hbuild, hlen, hinv⟩ := buildSkipList_inv Hs ser vals
  refine ⟨⟨nodes⟩, hbuild, hlen, ?_⟩
  intro p node hp
  obtain ⟨h1, h2, h3⟩ := hinv p node hp
  exact ⟨h1, by rw [h1]; exact h2, h3⟩

theorem inclusionLoop_succ_eq (nodes : List (SLNode V)) (h fuel : Nat)
    (cur : SLNode V) (path : List (SLNode V)) :
    inclusionLoop nodes h (fuel + 1) cur path =
      if h < cur.height then
        match minByKey (fun finger => finger - h)
            ((cur.fingers.map Prod.fst).filter (fun finger => decide (h ≤ finger))) with
        | none => none
        | some closest =>
          if closest = 0 then none
          else
            match nodes[closest - 1]? with
            | none => none
            | some nxt => inclusionLoop nodes h fuel nxt (path ++ [cur])
      else if cur.height < h then none
      else some path := rfl

/-- One executed iteration of the `get_inclusion_proof` loop. -/
theorem inclusionLoop_step (nodes : List (SLNode V)) (h f g : Nat)
    (cur nxt : SLNode V) (path : List (SLNode V)) (closest : Nat)
    (hfg : f = g + 1)
    (hgt : h < cur.height)
    (hmin : minByKey (fun finger => finger - h)
        ((cur.fingers.map Prod.fst).filter (fun finger => decide (h ≤ finger)))
      = some closest)
    (hc0 : ¬ closest = 0)
    (hnxt : nodes[closest - 1]? = some nxt) :
    inclusionLoop nodes h f cur path
      = inclusionLoop nodes h g nxt (path ++ [cur]) := by
  subst hfg
  rw [inclusionLoop_succ_eq, if_pos hgt, hmin]
  show (if closest = 0 then none
    else
      match nodes[closest - 1]? with
      | none => none
      | some nd => inclusionLoop nodes h g nd (path ++ [cur])) = _
  rw [if_neg hc0, hnxt]

/-- Loop exit: the walk has reached exactly height `h`. -/
theorem inclusionLoop_done (nodes : List (SLNode V)) (h f g : Nat)
    (cur : SLNode V) (path : List (SLNode V)) (hfg : f = g + 1)
    (hh : cur.height = h) :
    inclusionLoop nodes h f cur path = some path := by
  subst hfg
  rw [inclusionLoop_succ_eq, if_neg (by omega), if_neg (by omega)]

theorem get_inclusion_proof_eq (nodes : List (SLNode V)) (h : Nat) :
    SkipList.get_inclusion_proof ⟨nodes⟩ h =
      if h ≤ nodes.length then
        match nodes.getLast? with
        | none => none
        | some cur => inclusionLoop nodes h (nodes.length + 1) cur []
      else none := rfl

/-- The concrete walk performed by `get_inclusion_proof(345)` on any
1000-node skip list built by `add`: it descends through the nodes of
heights 1000, 900, …, 400, 390, …, 350, 349, 348, 347, 346 and stops at
height 345, so the returned path has these 16 heights. -/
theorem skipList_1000_inclusion_path (Hs : List Nat → List Nat)
    (ser : V → List Nat) (vals : List V) (hlen : vals.length = 1000) :
    ∃ sl path, buildSkipList Hs ser vals = some sl ∧
      sl.get_inclusion_proof 345 = some path ∧
      path.map SLNode.height
        = [1000, 900, 800, 700, 600, 500, 400, 390, 380,
           370, 360, 350, 349, 348, 347, 346] := by
  obtain ⟨nodes, hbuild, hlenn, hinv⟩ := buildSkipList_inv Hs ser vals
  rw [hlen] at hlenn
  have hnode : ∀ p, p < 1000 → ∃ nd, nodes[p]? = some nd := by
    intro p hp
    have hlt : p < nodes.length := by omega
    exact ⟨nodes[p], (List.getElem?_eq_some_getElem_iff nodes p hlt).mpr trivial⟩
  obtain ⟨n999, h999⟩ := hnode 999 (by norm_num)
  obtain ⟨hh999, hk999, -⟩ := hinv 999 n999 h999
  obtain ⟨n899, h899⟩ := hnode 899 (by norm_num)
  obtain ⟨hh899, hk899, -⟩ := hinv 899 n899 h899
  obtain ⟨n799, h799⟩ := hnode 799 (by norm_num)
  obtain ⟨hh799, hk799, -⟩ := hinv 799 n799 h799
  obtain ⟨n699, h699⟩ := hnode 699 (by norm_num)
  obtain ⟨hh699, hk699, -⟩ := hinv 699 n699 h699
  obtain ⟨n599, h599⟩ := hnode 599 (by norm_num)
  obtain ⟨hh599, hk599, -⟩ := hinv 599 n599 h599
  obtain ⟨n499, h499⟩ := hnode 499 (by norm_num)
  obtain ⟨hh499, hk499, -⟩ := hinv 499 n499 h499
  obtain ⟨n399, h399⟩ := hnode 399 (by norm_num)
  obtain ⟨hh399, hk399, -⟩ := hinv 399 n399 h399
  obtain ⟨n389, h389⟩ := hnode 389 (by norm_num)
  obtain ⟨hh389, hk389, -⟩ := hinv 389 n389 h389
  obtain ⟨n379, h379⟩ := hnode 379 (by norm_num)
  obtain ⟨hh379, hk379, -⟩ := hinv 379 n379 h379
  obtain ⟨n369, h369⟩ := hnode 369 (by norm_num)
  obtain ⟨hh369, hk369, -⟩ := hinv 369 n369 h369
  obtain ⟨n359, h359⟩ := hnode 359 (by norm_num)
  obtain ⟨hh359, hk359, -⟩ := hinv 359 n359 h359
  obtain ⟨n349, h349⟩ := hnode 349 (by norm_num)
  obtain ⟨hh349, hk349, -⟩ := hinv 349 n349 h349
  obtain ⟨n348, h348⟩ := hnode 348 (by norm_num)
  obtain ⟨hh348, hk348, -⟩ := hinv 348 n348 h348
  obtain ⟨n347, h347⟩ := hnode 347 (by norm_num)
  obtain ⟨hh347, hk347, -⟩ := hinv 347 n347 h347
  obtain ⟨n346, h346⟩ := hnode 346 (by norm_num)
  obtain ⟨hh346, hk346, -⟩ := hinv 346 n346 h346
  obtain ⟨n345, h345⟩ := hnode 345 (by norm_num)
  obtain ⟨hh345, hk345, -⟩ := hinv 345 n345 h345
  obtain ⟨n344, h344⟩ := hnode 344 (by norm_num)
  obtain ⟨hh344, hk344, -⟩ := hinv 344 n344 h344
  have hgl : nodes.getLast? = some n999 := by
    rw [List.getLast?_eq_getElem?, hlenn]
    exact h999
  have hrun : inclusionLoop nodes 345 (1000 + 1) n999 []
      = some [n999, n899, n799, n699, n599, n499, n399, n389, n379, n369, n359, n349, n348, n347, n346, n345] := by
    rw [
      inclusionLoop_step nodes 345 (1000 + 1) 1000 n999 n899 ([]) 900 rfl
        (by rw [hh999]; decide) (by rw [hk999]; decide) (by decide) h899,
      inclusionLoop_step nodes 345 1000 999 n899 n799 ([] ++ [n999]) 800 rfl
        (by rw [hh899]; decide) (by rw [hk899]; decide) (by decide) h799,
      inclusionLoop_step nodes 345 999 998 n799 n699 ([] ++ [n999] ++ [n899]) 700 rfl
        (by rw [hh799]; decide) (by rw [hk799]; decide) (by decide) h699,
      inclusionLoop_step nodes 345 998 997 n699 n599 ([] ++ [n999] ++ [n899] ++ [n799]) 600 rfl
        (by rw [hh699]; decide) (by rw [hk699]; decide) (by decide) h599,
      inclusionLoop_step nodes 345 997 996 n599 n499 ([] ++ [n999] ++ [n899] ++ [n799] ++ [n699]) 500 rfl
        (by rw [hh599]; decide) (by rw [hk599]; decide) (by decide) h499,
      inclusionLoop_step nodes 345 996 995 n499 n399 ([] ++ [n999] ++ [n899] ++ [n799] ++ [n699] ++ [n599]) 400 rfl
        (by rw [hh499]; decide) (by rw [hk499]; decide) (by decide) h399,
      inclusionLoop_step nodes 345 995 994 n399 n389 ([] ++ [n999] ++ [n899] ++ [n799] ++ [n699] ++ [n599] ++ [n499]) 390 rfl
        (by rw [hh399]; decide) (by rw [hk399]; decide) (by decide) h389,
      inclusionLoop_step nodes 345 994 993 n389 n379 ([] ++ [n999] ++ [n899] ++ [n799] ++ [n699] ++ [n599] ++ [n499] ++ [n399]) 380 rfl
        (by rw [hh389]; decide) (by rw [hk389]; decide) (by decide) h379,
      inclusionLoop_step nodes 345 993 992 n379 n369 ([] ++ [n999] ++ [n899] ++ [n799] ++ [n699] ++ [n599] ++ [n499] ++ [n399] ++ [n389]) 370 rfl
        (by rw [hh379]; decide) (by rw [hk379]; decide) (by decide) h369,
      inclusionLoop_step nodes 345 992 991 n369 n359 ([] ++ [n999] ++ [n899] ++ [n799] ++ [n699] ++ [n599] ++ [n499] ++ [n399] ++ [n389] ++ [n379]) 360 rfl
        (by rw [hh369]; decide) (by rw [hk369]; decide) (by decide) h359,
      inclusionLoop_step nodes 345 991 990 n359 n349 ([] ++ [n999] ++ [n899] ++ [n799] ++ [n699] ++ [n599] ++ [n499] ++ [n399] ++ [n389] ++ [n379] ++ [n369]) 350 rfl
        (by rw [hh359]; decide) (by rw [hk359]; decide) (by decide) h349,
      inclusionLoop_step nodes 345 990 989 n349 n348 ([] ++ [n999] ++ [n899] ++ [n799] ++ [n699] ++ [n599] ++ [n499] ++ [n399] ++ [n389] ++ [n379] ++ [n369] ++ [n359]) 349 rfl
        (by rw [hh349]; decide) (by rw [hk349]; decide) (by decide) h348,
      inclusionLoop_step nodes 345 989 988 n348 n347 ([] ++ [n999] ++ [n899] ++ [n799] ++ [n699] ++ [n599] ++ [n499] ++ [n399] ++ [n389] ++ [n379] ++ [n369] ++ [n359] ++ [n349]) 348 rfl
        (by rw [hh348]; decide) (by rw [hk348]; decide) (by decide) h347,
      inclusionLoop_step nodes 345 988 987 n347 n346 ([] ++ [n999] ++ [n899] ++ [n799] ++ [n699] ++ [n599] ++ [n499] ++ [n399] ++ [n389] ++ [n379] ++ [n369] ++ [n359] ++ [n349] ++ [n348]) 347 rfl
        (by rw [hh347]; decide) (by rw [hk347]; decide) (by decide) h346,
      inclusionLoop_step nodes 345 987 986 n346 n345 ([] ++ [n999] ++ [n899] ++ [n799] ++ [n699] ++ [n599] ++ [n499] ++ [n399] ++ [n389] ++ [n379] ++ [n369] ++ [n359] ++ [n349] ++ [n348] ++ [n347]) 346 rfl
        (by rw [hh346]; decide) (by rw [hk346]; decide) (by decide) h345,
      inclusionLoop_step nodes 345 986 985 n345 n344 ([] ++ [n999] ++ [n899] ++ [n799] ++ [n699] ++ [n599] ++ [n499] ++ [n399] ++ [n389] ++ [n379] ++ [n369] ++ [n359] ++ [n349] ++ [n348] ++ [n347] ++ [n346]) 345 rfl
        (by rw [hh345]; decide) (by rw [hk345]; decide) (by decide) h344,
      inclusionLoop_done nodes 345 985 984 n344 ([] ++ [n999] ++ [n899] ++ [n799] ++ [n699] ++ [n599] ++ [n499] ++ [n399] ++ [n389] ++ [n379] ++ [n369] ++ [n359] ++ [n349] ++ [n348] ++ [n347] ++ [n346] ++ [n345]) rfl (by simp [hh344])]
    simp
  refine ⟨⟨nodes⟩, [n999, n899, n799, n699, n599, n499, n399, n389, n379, n369, n359, n349, n348, n347, n346, n345], hbuild, ?_, ?_⟩
  · rw [get_inclusion_proof_eq, hlenn, if_pos (by norm_num), hgl]
    exact hrun
  · simp [hh999, hh899, hh799, hh699, hh599, hh499, hh399, hh389, hh379, hh369, hh359, hh349, hh348, hh347, hh346, hh345]

/-- C4 (corrected): after adding 1000 values to a skip list (base 10),
`get_inclusion_proof(345)` does return a path whose first element has
height 1000, but the path's length is 16, not at most
⌈log10(1000)⌉ + 1 = 4: the walk can only shrink the trailing digits of the
height one decimal position at a time, stepping through
1000, 900, …, 400, 390, …, 350, 349, 348, 347, 346. -/
theorem C4_inclusion_proof_length (Hs : List Nat → List Nat)
    (ser : V → List Nat) (vals : List V) (hlen : vals.length = 1000) :
    ∃ sl path, buildSkipList Hs ser vals = some sl ∧
      sl.get_inclusion_proof 345 = some path ∧
      path.length = 16 ∧
      ∃ firstNode, path.head? = some firstNode ∧ firstNode.height = 1000 := by
  obtain ⟨sl, path, hb, hg, hmap⟩ := skipList_1000_inclusion_path Hs ser vals hlen
  refine ⟨sl, path, hb, hg, ?_, ?_⟩
  · have hl := congrArg List.length hmap
    simpa using hl
  · rcases path with _ | ⟨a, t⟩
    · simp at hmap
    · simp only [List.map_cons] at hmap
      rw [List.cons.injEq] at hmap
      exact ⟨a, rfl, hmap.1⟩

/-- Witness for C4 at a concrete input: the 1000 values `0..999` with the
trivial hash and serializer. -/
theorem C4_inclusion_proof_length_witness :
    (List.range 1000).length = 1000 ∧
    ∃ sl path,
      buildSkipList (fun _ => ([] : List Nat)) (fun _ : Nat => ([] : List Nat))
        (List.range 1000) = some sl ∧
      sl.get_inclusion_proof 345 = some path ∧
      path.length = 16 ∧
      ∃ firstNode, path.head? = some firstNode ∧ firstNode.height = 1000 :=
  ⟨by simp,
    C4_inclusion_proof_length (fun _ => ([] : List Nat)) (fun _ : Nat => ([] : List Nat))
      (List.range 1000) (by simp)⟩

/-- Counterexample to the claim's bound: on 1000 added values the path
returned by `get_inclusion_proof(345)` has length 16 > 4. -/
theorem C4_counterexample :
    ¬ ∀ (sl : SkipList Nat) (path : List (SLNode Nat)),
        buildSkipList (fun _ => ([] : List Nat)) (fun _ : Nat => ([] : List Nat))
          (List.range 1000) = some sl →
        sl.get_inclusion_proof 345 = some path →
        path.length ≤ 4 := by
  intro hcl
  obtain ⟨sl, path, hb, hg, hmap⟩ := skipList_1000_inclusion_path
    (fun _ => ([] : List Nat)) (fun _ : Nat => ([] : List Nat))
    (List.range 1000) (by simp)
  have hl : path.length = 16 := by
    have := congrArg List.length hmap
    simpa using this
  have := hcl sl path hb hg
  omega
